import Mathlib

/-!
struct-map: a primary-key / secondary-index store over tagged structs.

A shallow embedding of `struct_map.go` and the properties of its
specification.

Modelling conventions.

* A Go `map[string]T` is a `Finmap`; a `map[string]struct{}` (a set of
  primary keys) is a `Finset String`.  `Mapper.indexes` is an association
  list with distinct keys (`AList`), ranged over in list order: the Go `range`
  order over a map is unspecified, and every iteration of the loops in `Add`,
  `Remove` and `Get` touches only the index of its own name.
* A slice built by ranging over a bucket has an unspecified order, so the
  result of `Get` is a `Multiset`.
* The part of package `reflect` the program uses is modelled by `GoType` and
  `Value`.  An `interface{}` argument is a `Value`; the nil interface is
  `Value.invalid`, whose type is absent.
* A run-time panic is the result `none`.  The operations are modelled as
  sequential state passing, without the `sync.RWMutex` fields; the locking is
  modelled apart, as the lock, unlock, read and write steps of every method in
  program order (`Step`, `Guarded`).
-/

namespace StructMap

/-! ## The part of package `reflect` the program uses -/

/-- The kinds of `reflect.Kind`. -/
inductive Kind where
  | Invalid | Bool | Int | Int8 | Int16 | Int32 | Int64
  | Uint | Uint8 | Uint16 | Uint32 | Uint64 | Uintptr
  | Float32 | Float64 | Complex64 | Complex128
  | Array | Chan | Func | Interface | Map | Ptr | Slice | String | Struct
  | UnsafePointer
deriving DecidableEq, Repr

/-- A struct tag, as the list of its `key:"value"` pairs. -/
abbrev StructTag := List (String × String)

/-- The method `StructTag.Get`: the value under `key`, or the empty string. -/
def StructTag.Get (tag : StructTag) (key : String) : String :=
  (tag.lookup key).getD ""

/-- A field of a struct type (`reflect.StructField`).  Of the field's type the
program reads the kind only; `TypeName` stands for the identity of that type. -/
structure StructField where
  Name : String
  Tag : StructTag
  Kind : Kind
  TypeName : String
deriving DecidableEq, Repr

/-- A Go type (`reflect.Type`).  `basic` is a type that is neither a pointer nor
a struct, given by its kind and its name; a struct type is given by its name
(its printed form, for an unnamed struct type) and its fields in order. -/
inductive GoType where
  | basic (k : {k : Kind // k ≠ Kind.Ptr ∧ k ≠ Kind.Struct}) (name : String)
  | ptr (elem : GoType)
  | struct (name : String) (fields : List StructField)
deriving DecidableEq

/-- The method `Type.Kind`. -/
def GoType.Kind : GoType → Kind
  | .basic k _ => k.val
  | .ptr _ => Kind.Ptr
  | .struct _ _ => Kind.Struct

/-- The method `Type.Elem` on a pointer type.  (On an array, channel, map or
slice type `Elem` is not modelled; the program calls it on pointer types only.) -/
def GoType.Elem : GoType → Option GoType
  | .ptr e => some e
  | _ => none

/-- The fields of a struct type, as `NumField` and `Field(i)` enumerate them. -/
def GoType.Fields : GoType → List StructField
  | .struct _ fs => fs
  | _ => []

/-- The method `Type.String` (named `StringOf` here, `String` being the type). -/
def GoType.StringOf : GoType → String
  | .basic _ n => n
  | .ptr e => "*" ++ e.StringOf
  | .struct n _ => n

/-- A Go value, as seen through an `interface{}` or a `reflect.Value`.
`invalid` is the zero `reflect.Value`, which is also what the nil interface
reflects to.  `basic` is a value that is neither a struct nor a pointer
(`content` is the string itself for kind `String`, and stands for the contents
otherwise); the same constructor carries the fields of a struct.  A struct
value lists the contents of its fields in the order of `fields`.  A non-nil
pointer has an address, which tells two pointers apart, and a pointee. -/
inductive Value where
  | invalid
  | basic (k : Kind) (typeName : String) (content : String)
  | struct (name : String) (fields : List StructField) (vals : List String)
  | nilptr (elem : GoType)
  | ptr (addr : Nat) (elem : Value)
deriving DecidableEq

/-- The function `reflect.TypeOf`: the dynamic type, `none` for the nil
interface (a nil `reflect.Type`).  A `basic` value of kind `Ptr` or `Struct` is
a struct field carried without its type; the program never asks for it. -/
def TypeOf : Value → Option GoType
  | .invalid => none
  | .basic k n _ =>
    if h : k ≠ Kind.Ptr ∧ k ≠ Kind.Struct then some (.basic ⟨k, h⟩ n) else none
  | .struct n fs _ => some (.struct n fs)
  | .nilptr e => some (.ptr e)
  | .ptr _ v => (TypeOf v).map GoType.ptr

/-- The method `Value.Elem`: the pointee of a pointer, the zero `Value` for a
nil pointer; it panics on a value that is not a pointer. -/
def Value.Elem : Value → Option Value
  | .ptr _ v => some v
  | .nilptr _ => some .invalid
  | _ => none

/-- The field named `name` of a struct value with fields `fs` and contents
`vals` (one content for every field): the first field of that name, the zero
`Value` when there is none. -/
def fieldValue : List StructField → List String → String → Value
  | f :: fs, v :: vals, name =>
    if f.Name = name then .basic f.Kind f.TypeName v else fieldValue fs vals name
  | _, _, _ => .invalid

/-- The method `Value.FieldByName`; it panics on a value that is not a struct
(the zero `Value` included). -/
def Value.FieldByName : Value → String → Option Value
  | .struct _ fs vals, name => some (fieldValue fs vals name)
  | _, _ => none

/-- The method `Value.String` (named `StringOf` here): the string of a value of kind `String`, and a
description of the type for every other value. -/
def Value.StringOf : Value → String
  | .invalid => "<invalid Value>"
  | .basic k n c => if k = Kind.String then c else "<" ++ n ++ " Value>"
  | .struct n _ _ => "<" ++ n ++ " Value>"
  | .nilptr e => "<*" ++ e.StringOf ++ " Value>"
  | .ptr _ v => "<*" ++ ((TypeOf v).map GoType.StringOf).getD "" ++ " Value>"

/-! ## The program -/

def tagName : String := "struct_map"
def structMapPk : String := "pk"
def structMapIndex : String := "index"

/-- The four error values of the package. -/
inductive Error where
  | ErrPk
  | ErrPkIndexNotString
  | ErrNotStruct
  | ErrDifferentType
deriving DecidableEq, Repr

deriving instance DecidableEq for Except

/-- The primary map: primary key to stored object. -/
structure pk where
  m : Finmap (fun _ : String => Value)
deriving DecidableEq

/-- A secondary index: attribute value to the set of primary keys (a bucket). -/
structure index where
  m : Finmap (fun _ : String => Finset String)
deriving DecidableEq

/-- Equality of association lists is decided on their entries. -/
instance decEqIndexes : DecidableEq (AList (fun _ : String => index)) :=
  fun a b => decidable_of_iff (a.entries = b.entries) ⟨AList.ext, fun h => h ▸ rfl⟩

/-- The store. -/
structure Mapper where
  typ : GoType
  eleTyp : GoType
  pkName : String
  pk : pk
  indexes : AList (fun _ : String => index)
deriving DecidableEq

/-- The field loop of `NewMapper`, from the field list still to visit, the
mapper built so far and the count of `pk` fields seen.  The last three branches
are the `switch` on the tag value. -/
def NewMapper.fieldLoop : List StructField → Mapper → Nat → Except Error (Mapper × Nat)
  | [], mapper, pkCount => .ok (mapper, pkCount)
  | field :: rest, mapper, pkCount =>
    let tagVal := field.Tag.Get tagName
    if ¬ (tagVal = structMapPk ∨ tagVal = structMapIndex) then
      NewMapper.fieldLoop rest mapper pkCount
    else if field.Kind ≠ Kind.String then
      .error Error.ErrPkIndexNotString
    else if tagVal = structMapPk then
      NewMapper.fieldLoop rest { mapper with pkName := field.Name } (pkCount + 1)
    else if tagVal = structMapIndex then
      NewMapper.fieldLoop rest
        { mapper with indexes := mapper.indexes.insert field.Name ⟨∅⟩ } pkCount
    else
      NewMapper.fieldLoop rest mapper pkCount

/-- The function `NewMapper`.  The result is `none` when the call panics,
`some (.error e)` for `(nil, e)` and `some (.ok m)` for `(m, nil)`. -/
def NewMapper (obj : Value) : Option (Except Error Mapper) :=
  -- `typ.Kind()` on the nil `reflect.Type` is a nil dereference
  (TypeOf obj).bind fun typ =>
  (if typ.Kind = Kind.Ptr then typ.Elem else some typ).bind fun eleTyp =>
  if eleTyp.Kind ≠ Kind.Struct then
    some (.error Error.ErrNotStruct)
  else
    let mapper : Mapper :=
      { typ := typ, eleTyp := eleTyp, pkName := "", pk := ⟨∅⟩, indexes := ∅ }
    match NewMapper.fieldLoop eleTyp.Fields mapper 0 with
    | .error e => some (.error e)
    | .ok (mapper, pkCount) =>
      if pkCount ≠ 1 then some (.error Error.ErrPk) else some (.ok mapper)

namespace Mapper

def getByPk (m : Mapper) (pk : String) : Option Value :=
  m.pk.m.lookup pk

def addByPk (m : Mapper) (pk : String) (obj : Value) : Mapper :=
  { m with pk := ⟨m.pk.m.insert pk obj⟩ }

def removeByPk (m : Mapper) (pk : String) : Mapper :=
  { m with pk := ⟨m.pk.m.erase pk⟩ }

/-- The method `getByIndex`; a missing index is a nil dereference. -/
def getByIndex (m : Mapper) (indexName index : String) : Option (Multiset Value) :=
  (m.indexes.lookup indexName).bind fun idx =>
  match idx.m.lookup index with
  | none => some 0
  | some pks => some (pks.val.filterMap fun pk => m.getByPk pk)

/-- The method `addByIndex`; a missing index is a nil dereference. -/
def addByIndex (m : Mapper) (indexName index pk : String) : Option Mapper :=
  (m.indexes.lookup indexName).bind fun idx =>
  let idxm := if idx.m.lookup index = none then idx.m.insert index ∅ else idx.m
  let bucket := (idxm.lookup index).getD ∅
  some { m with indexes := m.indexes.replace indexName ⟨idxm.insert index (insert pk bucket)⟩ }

/-- The method `removeByIndex`; a missing index is a nil dereference. -/
def removeByIndex (m : Mapper) (indexName index pk : String) : Option Mapper :=
  (m.indexes.lookup indexName).bind fun idx =>
  match idx.m.lookup index with
  | none => some m
  | some pks =>
    let bucket := pks.erase pk
    let idxm := idx.m.insert index bucket
    if bucket.card = 0 then
      some { m with indexes := m.indexes.replace indexName ⟨idxm.erase index⟩ }
    else
      some { m with indexes := m.indexes.replace indexName ⟨idxm⟩ }

/-- The method `Add`.  The result is `none` when the call panics, otherwise the
store after the call and the returned error (`none` for `nil`). -/
def Add (m : Mapper) (obj : Value) : Option (Mapper × Option Error) :=
  if TypeOf obj ≠ some m.typ then
    some (m, some Error.ErrDifferentType)
  else
    (if m.typ ≠ m.eleTyp then obj.Elem else some obj).bind fun val =>
    (val.FieldByName m.pkName).bind fun pkVal =>
    let pk := pkVal.StringOf
    (m.indexes.keys.foldlM
      (fun (st : Mapper) indexName =>
        (val.FieldByName indexName).bind fun indexVal =>
        st.addByIndex indexName indexVal.StringOf pk)
      (m.addByPk pk obj)).map fun st => (st, none)

/-- The method `Remove`, with the result convention of `Add`. -/
def Remove (m : Mapper) (obj : Value) : Option (Mapper × Option Error) :=
  if TypeOf obj ≠ some m.typ then
    some (m, some Error.ErrDifferentType)
  else
    (if m.typ ≠ m.eleTyp then obj.Elem else some obj).bind fun val =>
    (val.FieldByName m.pkName).bind fun pkVal =>
    let pk := pkVal.StringOf
    (m.indexes.keys.foldlM
      (fun (st : Mapper) indexName =>
        (val.FieldByName indexName).bind fun indexVal =>
        st.removeByIndex indexName indexVal.StringOf pk)
      (m.removeByPk pk)).map fun st => (st, none)

/-- The loop of `Get` over the index names. -/
def Get.range (m : Mapper) (fieldName val : String) : List String → Option (Multiset Value)
  | [] => some 0
  | indexName :: rest =>
    if fieldName = indexName then m.getByIndex indexName val
    else Get.range m fieldName val rest

/-- The method `Get`.  The result is `none` when the call panics; a nil slice
is the empty multiset. -/
def Get (m : Mapper) (fieldName val : String) : Option (Multiset Value) :=
  if fieldName = m.pkName then
    match m.getByPk val with
    | some obj => some {obj}
    | none => some 0
  else
    Get.range m fieldName val m.indexes.keys

end Mapper

/-! ## The test fixtures of `struct_map_test.go` -/

def stringField (name : String) (tag : StructTag) : StructField :=
  { Name := name, Tag := tag, Kind := Kind.String, TypeName := "string" }

def BookFields : List StructField :=
  [stringField "Id" [("struct_map", "pk")], stringField "Title" [("struct_map", "index")],
   stringField "Desc" [], stringField "Author" [("struct_map", "index")]]

def BookType : GoType := .struct "struct_map.Book" BookFields

def mkBook (addr : Nat) (id title author : String) : Value :=
  .ptr addr (.struct "struct_map.Book" BookFields [id, title, "", author])

def book1 : Value := mkBook 1 "1" "Jane Eyre" "Charlotte Bronte"
def book2 : Value := mkBook 2 "2" "Gone With the Wind" "Margaret Mitchell"
def book3 : Value := mkBook 3 "3" "Pride and Prejudice" "Jane Austen"

/-- The store `NewMapper(&Book{})` returns. -/
def bookMapper : Mapper :=
  { typ := .ptr BookType, eleTyp := BookType, pkName := "Id", pk := ⟨∅⟩,
    indexes := (AList.insert "Author" ⟨∅⟩ (AList.insert "Title" ⟨∅⟩ ∅)) }

/-! ## Notions the properties are stated with -/

/-- The struct value whose attributes `Add` and `Remove` read: the object
itself when it is a struct value, its pointee when it is a non-nil pointer to
a struct value. -/
def Value.record : Value → Option Value
  | .struct n fs vals => some (.struct n fs vals)
  | .ptr _ (.struct n fs vals) => some (.struct n fs vals)
  | _ => none

/-- The string the program reads off attribute `name` of a record, which is
`FieldByName(name).String()` on its struct value. -/
def Value.attr (obj : Value) (name : String) : String :=
  match obj.record with
  | some (.struct _ fs vals) => (fieldValue fs vals name).StringOf
  | _ => ""

/-- The schema part of a store is as `NewMapper` sets it: the element type is a
struct type, and the bound type is that type or the pointer type to it. -/
def Mapper.Bound (m : Mapper) : Prop :=
  m.eleTyp.Kind = Kind.Struct ∧ (m.typ = m.eleTyp ∨ m.typ = .ptr m.eleTyp)

/-- The bucket of value `v` in index `a`, when the index and the bucket exist. -/
def Mapper.bucket (m : Mapper) (a v : String) : Option (Finset String) :=
  (m.indexes.lookup a).bind fun idx => idx.m.lookup v

/-- An index after primary key `k` is put into the bucket of value `v`. -/
def index.add (idx : index) (v k : String) : index :=
  ⟨idx.m.insert v (insert k ((idx.m.lookup v).getD ∅))⟩

/-- An index after primary key `k` is taken out of the bucket of value `v`,
the bucket being dropped when it is left empty. -/
def index.remove (idx : index) (v k : String) : index :=
  match idx.m.lookup v with
  | none => idx
  | some pks => if pks.erase k = ∅ then ⟨idx.m.erase v⟩ else ⟨idx.m.insert v (pks.erase k)⟩

/-- The store with every index `a` replaced by `g a` of it. -/
def Mapper.mapIndexes (m : Mapper) (g : String → index → index) : Mapper :=
  { m with indexes :=
      ⟨m.indexes.entries.map (Sigma.map id g), by
        have h := m.indexes.nodupKeys
        simpa [List.NodupKeys, List.keys, List.map_map, Function.comp_def, Sigma.map] using h⟩ }

/-- The field is tagged `struct_map:"pk"`. -/
def StructField.isPk (f : StructField) : Bool := f.Tag.Get tagName = structMapPk

/-- The field is tagged `struct_map:"index"`. -/
def StructField.isIndex (f : StructField) : Bool := f.Tag.Get tagName = structMapIndex

/-- No secondary index holds an empty bucket. -/
def Mapper.NoEmptyBucket (m : Mapper) : Prop :=
  ∀ a v b, m.bucket a v = some b → b ≠ ∅

/-- The states a store goes through: the one `NewMapper` returns, and the one
after every call of `Add` or `Remove` that returns (with an error or without). -/
inductive Reachable : Mapper → Prop where
  | new (obj : Value) (m : Mapper) : NewMapper obj = some (.ok m) → Reachable m
  | add (m m' : Mapper) (obj : Value) (e : Option Error) :
      Reachable m → m.Add obj = some (m', e) → Reachable m'
  | remove (m m' : Mapper) (obj : Value) (e : Option Error) :
      Reachable m → m.Remove obj = some (m', e) → Reachable m'

/-- The three cases of `Get` as the specification words them: on the primary
attribute, the record stored under `v` if there is one; on a declared secondary
index, one record for every key of the bucket that is a key of the primary map;
on any other name, nothing. -/
def Get_spec (m : Mapper) (n v : String) : Multiset Value :=
  if n = m.pkName then
    match m.pk.m.lookup v with
    | some r => {r}
    | none => 0
  else if n ∈ m.indexes then
    match m.bucket n v with
    | some ks => (ks.val.filter fun k => k ∈ m.pk.m).map fun k => (m.pk.m.lookup k).getD .invalid
    | none => 0
  else 0

/-- A `Book` passed by value. -/
def bookValue : Value := .struct "struct_map.Book" BookFields ["1", "Jane Eyre", "", "Charlotte Bronte"]

/-- The fields of a struct type with no `pk` field and an `index` field of kind `Int`. -/
def noPkIntIndexFields : List StructField :=
  [{ Name := "Title", Tag := [("struct_map", "index")], Kind := Kind.Int, TypeName := "int" }]

/-- A value of that struct type. -/
def noPkIntIndex : Value := .struct "struct { Title int }" noPkIntIndexFields ["0"]

/-! ## Call sequences and the replace discipline -/

/-- Every stored record is stored under its own primary key and sits, in every
index, in the bucket of its value. -/
def Mapper.Findable (m : Mapper) : Prop :=
  ∀ k r, m.pk.m.lookup k = some r →
    r.attr m.pkName = k ∧ ∀ a, a ∈ m.indexes → ∃ b, m.bucket a (r.attr a) = some b ∧ k ∈ b

/-- The store after `Add(book1)` on the fresh store of the tests. -/
def bookStore1 : Mapper :=
  { bookMapper with
      pk := ⟨Finmap.singleton "1" book1⟩
      indexes := AList.insert "Author" ⟨Finmap.singleton "Charlotte Bronte" {"1"}⟩
        (AList.insert "Title" ⟨Finmap.singleton "Jane Eyre" {"1"}⟩ ∅) }

/-- A second `Book` under the primary key of `book1`, with another title. -/
def book1b : Value := mkBook 4 "1" "Villette" "Charlotte Bronte"

/-- A call of one of the two mutating methods. -/
inductive Call where
  | Add (obj : Value)
  | Remove (obj : Value)
deriving DecidableEq

/-- The argument of a call. -/
def Call.obj : Call → Value
  | .Add obj => obj
  | .Remove obj => obj

/-- One call on a store. -/
def Mapper.call (m : Mapper) : Call → Option (Mapper × Option Error)
  | .Add obj => m.Add obj
  | .Remove obj => m.Remove obj

/-- A sequence of calls, one after the other: the final store and the error
every call returned; `none` when a call panics. -/
def Mapper.calls (m : Mapper) : List Call → Option (Mapper × List (Option Error))
  | [] => some (m, [])
  | c :: cs =>
    (m.call c).bind fun s => (s.1.calls cs).map fun t => (t.1, s.2 :: t.2)

/-- The records a call sequence adds, in order. -/
def added : List Call → List Value
  | [] => []
  | .Add obj :: cs => obj :: added cs
  | .Remove _ :: cs => added cs

/-- The records a call sequence removes, in order. -/
def removed : List Call → List Value
  | [] => []
  | .Add _ :: cs => removed cs
  | .Remove obj :: cs => obj :: removed cs

/-- A second `Book` with the title of `book1`, under another primary key. -/
def book5 : Value := mkBook 5 "5" "Jane Eyre" "Another Author"

/-- The indexes agree with the primary map: every stored record is stored under
its own primary key, and in every index `a` the members of the bucket of `v`
(none when the bucket is absent) are the keys of the stored records whose
`a`-value is `v`. -/
def Mapper.Consistent (m : Mapper) : Prop :=
  (∀ k o, m.pk.m.lookup k = some o → o.attr m.pkName = k) ∧
  ∀ a, a ∈ m.indexes → ∀ v k,
    k ∈ (m.bucket a v).getD ∅ ↔ ∃ o, m.pk.m.lookup k = some o ∧ o.attr a = v

/-- The states reached under the replace discipline: from a store `NewMapper`
returned, by `Add(r)` when nothing is stored under `r`'s primary key, and by
`Remove(r)` when the record stored under `r`'s primary key has `r`'s value in
every secondary index. -/
inductive Disciplined : Mapper → Prop where
  | new (obj : Value) (m : Mapper) : NewMapper obj = some (.ok m) → Disciplined m
  | add (m m' : Mapper) (r : Value) : Disciplined m →
      TypeOf r = some m.typ → r.record.isSome → r.attr m.pkName ∉ m.pk.m →
      m.Add r = some (m', none) → Disciplined m'
  | remove (m m' : Mapper) (r r₀ : Value) : Disciplined m →
      TypeOf r = some m.typ → r.record.isSome →
      m.pk.m.lookup (r.attr m.pkName) = some r₀ →
      (∀ a, a ∈ m.indexes → r₀.attr a = r.attr a) →
      m.Remove r = some (m', none) → Disciplined m'

/-! ## The locking of the methods -/

/-- A mutex of the store: `pk.mu`, or the `mu` of the index of a name. -/
inductive Mutex where
  | pk
  | index (indexName : String)
deriving DecidableEq

/-- A Go map of the store: `pk.m`, the `m` of the index of a name, or a bucket
`idx.m[index]` of that index. -/
inductive MapRef where
  | pk
  | index (indexName : String)
  | bucket (indexName index : String)
deriving DecidableEq

/-- The mutex the methods take around a map: `pk.mu` for the primary map, the
`mu` of the index for the index map and for its buckets, which have no mutex of
their own. -/
def MapRef.mutex : MapRef → Mutex
  | .pk => .pk
  | .index n => .index n
  | .bucket n _ => .index n

/-- What a method does to the mutexes and the maps, one step at a time. -/
inductive Step where
  | RLock (mu : Mutex)
  | RUnlock (mu : Mutex)
  | Lock (mu : Mutex)
  | Unlock (mu : Mutex)
  | read (mp : MapRef)
  | write (mp : MapRef)
deriving DecidableEq

namespace Mapper

/-- The steps of `getByPk`: the deferred `RUnlock` comes after the lookup. -/
def getByPk.steps : List Step :=
  [.RLock .pk, .read .pk, .RUnlock .pk]

/-- The steps of `addByPk`. -/
def addByPk.steps : List Step :=
  [.Lock .pk, .write .pk, .Unlock .pk]

/-- The steps of `removeByPk`. -/
def removeByPk.steps : List Step :=
  [.Lock .pk, .write .pk, .Unlock .pk]

/-- The steps of `getByIndex`: the lookup of the bucket under the read lock,
the `RUnlock`, and then the `range` over the bucket, which reads the bucket
once for every key and calls `getByPk`. -/
def getByIndex.steps (m : Mapper) (indexName index : String) : List Step :=
  match m.indexes.lookup indexName with
  | none => []
  | some idx =>
    [.RLock (.index indexName), .read (.index indexName), .RUnlock (.index indexName)] ++
    match idx.m.lookup index with
    | none => []
    | some pks =>
      (List.replicate pks.card (Step.read (.bucket indexName index) :: getByPk.steps)).flatten

/-- The steps of `addByIndex`. -/
def addByIndex.steps (m : Mapper) (indexName index : String) : List Step :=
  match m.indexes.lookup indexName with
  | none => []
  | some idx =>
    [.Lock (.index indexName), .read (.index indexName)] ++
    (if idx.m.lookup index = none then [.write (.index indexName)] else []) ++
    [.read (.index indexName), .write (.bucket indexName index), .Unlock (.index indexName)]

/-- The steps of `removeByIndex`. -/
def removeByIndex.steps (m : Mapper) (indexName index pk : String) : List Step :=
  match m.indexes.lookup indexName with
  | none => []
  | some idx =>
    [.Lock (.index indexName), .read (.index indexName)] ++
    match idx.m.lookup index with
    | none => [.Unlock (.index indexName)]
    | some pks =>
      [.read (.index indexName), .write (.bucket indexName index),
        .read (.index indexName), .read (.bucket indexName index)] ++
      (if (pks.erase pk).card = 0 then [.write (.index indexName)] else []) ++
      [.Unlock (.index indexName)]

/-- The steps of the loop of `Get` over the index names. -/
def Get.rangeSteps (m : Mapper) (fieldName val : String) : List String → List Step
  | [] => []
  | indexName :: rest =>
    if fieldName = indexName then getByIndex.steps m indexName val
    else Get.rangeSteps m fieldName val rest

/-- The steps of `Get`. -/
def Get.steps (m : Mapper) (fieldName val : String) : List Step :=
  if fieldName = m.pkName then getByPk.steps
  else Get.rangeSteps m fieldName val m.indexes.keys

end Mapper

/-- Every read of a map comes while its mutex is held, shared or exclusive, and
every write while it is held exclusive; `heldR` and `heldW` are the mutexes
held so far. -/
def Guarded.from (heldR heldW : List Mutex) : List Step → Bool
  | [] => true
  | .RLock mu :: rest => Guarded.from (mu :: heldR) heldW rest
  | .RUnlock mu :: rest => Guarded.from (heldR.erase mu) heldW rest
  | .Lock mu :: rest => Guarded.from heldR (mu :: heldW) rest
  | .Unlock mu :: rest => Guarded.from heldR (heldW.erase mu) rest
  | .read mp :: rest =>
    (decide (mp.mutex ∈ heldR) || decide (mp.mutex ∈ heldW)) && Guarded.from heldR heldW rest
  | .write mp :: rest => decide (mp.mutex ∈ heldW) && Guarded.from heldR heldW rest

/-- The steps of a call keep the locking discipline. -/
def Guarded (steps : List Step) : Bool := Guarded.from [] [] steps

/-! ## Association lists and finite maps -/

section Maps

variable {β : Type}

theorem dlookup_kreplace_self {a : String} {b : β} :
    ∀ {l : List (Σ _ : String, β)}, a ∈ l.keys → List.dlookup a (List.kreplace a b l) = some b
  | [], h => by simp at h
  | ⟨a', b'⟩ :: l, h => by
    by_cases e : a = a'
    · subst e
      simp [List.kreplace, List.lookmap_cons_some]
    · have h' : a ∈ l.keys := by
        simpa [List.keys, e] using h
      have ih := dlookup_kreplace_self (b := b) h'
      simp only [List.kreplace] at ih ⊢
      rw [List.lookmap_cons_none _ _ (by simp [e])]
      rw [List.dlookup_cons_ne _ _ (by simpa using e)]
      exact ih

theorem dlookup_kreplace_ne {a a' : String} {b : β} (hne : a ≠ a') :
    ∀ {l : List (Σ _ : String, β)}, List.dlookup a (List.kreplace a' b l) = List.dlookup a l
  | [] => by simp [List.kreplace]
  | ⟨c, d⟩ :: l => by
    have ih := dlookup_kreplace_ne (b := b) hne (l := l)
    simp only [List.kreplace] at ih ⊢
    by_cases e : a' = c
    · subst e
      rw [List.lookmap_cons_some _ _ (by simp; rfl)]
      rw [List.dlookup_cons_ne _ _ (by simpa using hne), List.dlookup_cons_ne _ _ (by simpa using hne)]
    · rw [List.lookmap_cons_none _ _ (by simp [e])]
      by_cases e2 : a = c
      · subst e2; simp
      · rw [List.dlookup_cons_ne _ _ (by simpa using e2), List.dlookup_cons_ne _ _ (by simpa using e2)]
        exact ih

theorem alist_lookup_replace_self {a : String} {b : β} {s : AList (fun _ : String => β)}
    (h : a ∈ s) : (s.replace a b).lookup a = some b :=
  dlookup_kreplace_self (AList.mem_keys.1 h)

theorem alist_lookup_replace_ne {a a' : String} {b : β} {s : AList (fun _ : String => β)}
    (h : a ≠ a') : (s.replace a' b).lookup a = s.lookup a :=
  dlookup_kreplace_ne h

theorem entries_ext_lookup :
    ∀ {l₁ l₂ : List (Σ _ : String, β)}, l₁.NodupKeys → l₂.NodupKeys → l₁.keys = l₂.keys →
      (∀ a, List.dlookup a l₁ = List.dlookup a l₂) → l₁ = l₂
  | [], [], _, _, _, _ => rfl
  | [], _ :: _, _, _, hk, _ => by simp [List.keys] at hk
  | _ :: _, [], _, _, hk, _ => by simp [List.keys] at hk
  | ⟨a₁, b₁⟩ :: l₁, ⟨a₂, b₂⟩ :: l₂, n₁, n₂, hk, hl => by
    simp only [List.keys_cons, List.cons.injEq] at hk
    obtain ⟨rfl, hk⟩ := hk
    have hb : b₁ = b₂ := by
      have := hl a₁
      simpa using this
    subst hb
    rw [List.nodupKeys_cons] at n₁ n₂
    have : l₁ = l₂ := by
      refine entries_ext_lookup n₁.2 n₂.2 hk fun a => ?_
      by_cases e : a = a₁
      · subst e
        rw [List.dlookup_eq_none.2 n₁.1, List.dlookup_eq_none.2 n₂.1]
      · have := hl a
        rwa [List.dlookup_cons_ne _ _ (by simpa using e), List.dlookup_cons_ne _ _ (by simpa using e)] at this
    rw [this]

theorem alist_ext_lookup {s t : AList (fun _ : String => β)} (hk : s.keys = t.keys)
    (hl : ∀ a, s.lookup a = t.lookup a) : s = t :=
  AList.ext (entries_ext_lookup s.nodupKeys t.nodupKeys hk hl)

theorem finmap_erase_insert {γ : Type} (a : String) (b : γ) (s : Finmap (fun _ : String => γ)) :
    (s.insert a b).erase a = s.erase a := by
  apply Finmap.ext_lookup
  intro x
  by_cases e : x = a
  · subst e; simp
  · rw [Finmap.lookup_erase_ne e, Finmap.lookup_erase_ne e, Finmap.lookup_insert_of_ne _ e]

theorem finmap_erase_of_lookup_none {γ : Type} {a : String} {s : Finmap (fun _ : String => γ)}
    (h : s.lookup a = none) : s.erase a = s := by
  apply Finmap.ext_lookup
  intro x
  by_cases e : x = a
  · subst e; simp [h]
  · rw [Finmap.lookup_erase_ne e]

theorem finmap_insert_of_lookup {γ : Type} {a : String} {b : γ} {s : Finmap (fun _ : String => γ)}
    (h : s.lookup a = some b) : s.insert a b = s := by
  apply Finmap.ext_lookup
  intro x
  by_cases e : x = a
  · subst e; simp [h]
  · rw [Finmap.lookup_insert_of_ne _ e]

end Maps

/-! ## The operations in closed form -/

theorem GoType.ptr_ne_self : ∀ t : GoType, GoType.ptr t ≠ t
  | .ptr t, h => GoType.ptr_ne_self t (GoType.ptr.inj h)

theorem Mapper.keys_mapIndexes (m : Mapper) (g : String → index → index) :
    (m.mapIndexes g).indexes.keys = m.indexes.keys := by
  simp [Mapper.mapIndexes, AList.keys, List.keys, List.map_map, Function.comp_def, Sigma.map]

theorem Mapper.lookup_mapIndexes (m : Mapper) (g : String → index → index) (a : String) :
    (m.mapIndexes g).indexes.lookup a = (m.indexes.lookup a).map (g a) := by
  simp only [Mapper.mapIndexes, AList.lookup]
  exact List.dlookup_map₂ a

theorem Mapper.addByIndex_eq {m : Mapper} {a : String} {idx : index} (v k : String)
    (h : m.indexes.lookup a = some idx) :
    m.addByIndex a v k = some { m with indexes := m.indexes.replace a (idx.add v k) } := by
  unfold Mapper.addByIndex index.add
  rw [h]
  cases hv : idx.m.lookup v with
  | none => simp [hv, Finmap.insert_insert]
  | some b => simp [hv]

theorem Mapper.removeByIndex_eq {m : Mapper} {a : String} {idx : index} (v k : String)
    (h : m.indexes.lookup a = some idx) :
    m.removeByIndex a v k = some { m with indexes := m.indexes.replace a (idx.remove v k) } := by
  unfold Mapper.removeByIndex index.remove
  rw [h]
  cases hv : idx.m.lookup v with
  | none =>
    have : m.indexes.replace a idx = m.indexes :=
      AList.ext (List.kreplace_self m.indexes.nodupKeys (List.mem_dlookup_iff m.indexes.nodupKeys |>.1 h))
    simp [hv, this]
  | some b =>
    by_cases e : b.erase k = ∅
    · simp [hv, e, finmap_erase_insert]
    · simp [hv, e]

theorem Mapper.foldlM_replace (g : String → index → index) (F : Mapper → String → Option Mapper)
    (hF : ∀ (st : Mapper) (a : String) (idx : index), st.indexes.lookup a = some idx →
      F st a = some { st with indexes := st.indexes.replace a (g a idx) }) :
    ∀ (ks : List String) (st : Mapper), ks.Nodup → (∀ a ∈ ks, a ∈ st.indexes) →
      ∃ I, ks.foldlM F st = some { st with indexes := I } ∧ I.keys = st.indexes.keys ∧
        ∀ a, I.lookup a = if a ∈ ks then (st.indexes.lookup a).map (g a) else st.indexes.lookup a
  | [], st, _, _ => ⟨st.indexes, by simp⟩
  | k :: ks, st, nd, hmem => by
    have hk : k ∈ st.indexes := hmem k (List.mem_cons_self _ _)
    obtain ⟨idx, hidx⟩ := Option.isSome_iff_exists.1 (AList.lookup_isSome.2 hk)
    rw [List.nodup_cons] at nd
    have hmem' : ∀ a ∈ ks, a ∈ ({ st with indexes := st.indexes.replace k (g k idx) } : Mapper).indexes :=
      fun a ha => AList.mem_replace.2 (hmem a (List.mem_cons_of_mem _ ha))
    obtain ⟨I, hI, hkeys, hlook⟩ := Mapper.foldlM_replace g F hF ks _ nd.2 hmem'
    refine ⟨I, ?_, ?_, fun a => ?_⟩
    · rw [List.foldlM_cons, hF st k idx hidx]
      exact hI
    · rw [hkeys]; exact AList.keys_replace _ _ _
    · rw [hlook a]
      by_cases e : a = k
      · subst e
        simp [nd.1, alist_lookup_replace_self hk, hidx]
      · simp [e, alist_lookup_replace_ne e]

theorem Mapper.foldlM_keys (g : String → index → index) (F : Mapper → String → Option Mapper)
    (hF : ∀ (st : Mapper) (a : String) (idx : index), st.indexes.lookup a = some idx →
      F st a = some { st with indexes := st.indexes.replace a (g a idx) })
    (st : Mapper) : st.indexes.keys.foldlM F st = some (st.mapIndexes g) := by
  obtain ⟨I, hI, hkeys, hlook⟩ :=
    Mapper.foldlM_replace g F hF st.indexes.keys st st.indexes.keys_nodup fun a ha => AList.mem_keys.2 ha
  rw [hI]
  have : I = (st.mapIndexes g).indexes := by
    apply alist_ext_lookup
    · rw [hkeys, Mapper.keys_mapIndexes]
    · intro a
      rw [hlook a, Mapper.lookup_mapIndexes]
      by_cases e : a ∈ st.indexes.keys
      · simp [e]
      · have : st.indexes.lookup a = none := AList.lookup_eq_none.2 fun h => e (AList.mem_keys.1 h)
        simp [e, this]
  rw [this]
  rfl

/-- For a record of the bound type, the struct value the operations work on. -/
theorem Mapper.record_val {m : Mapper} {r s : Value} (hb : m.Bound) (ht : TypeOf r = some m.typ)
    (hr : r.record = some s) :
    (if m.typ ≠ m.eleTyp then r.Elem else some r) = some s ∧
      ∃ n fs vals, s = .struct n fs vals := by
  obtain ⟨hk, hty⟩ := hb
  cases r with
  | invalid => simp [Value.record] at hr
  | basic k n c => simp [Value.record] at hr
  | nilptr e => simp [Value.record] at hr
  | struct n fs vals =>
    simp only [Value.record, Option.some.injEq] at hr
    subst hr
    simp only [TypeOf, Option.some.injEq] at ht
    rcases hty with h | h
    · simp [h]
    · rw [← ht] at h; cases h
  | ptr a v =>
    cases v with
    | struct n fs vals =>
      simp only [Value.record, Option.some.injEq] at hr
      subst hr
      simp only [TypeOf, Option.map_some', Option.some.injEq] at ht
      rcases hty with h | h
      · rw [← h, ← ht] at hk; simp [GoType.Kind] at hk
      · have : m.typ ≠ m.eleTyp := by rw [h]; exact GoType.ptr_ne_self _
        simp [this, Value.Elem]
    | invalid => simp [Value.record] at hr
    | basic k n c => simp [Value.record] at hr
    | nilptr e => simp [Value.record] at hr
    | ptr a v => simp [Value.record] at hr

theorem Value.attr_eq {r : Value} {n : String} {fs : List StructField} {vals : List String}
    (hr : r.record = some (.struct n fs vals)) (name : String) :
    r.attr name = (fieldValue fs vals name).StringOf := by
  simp [Value.attr, hr]

/-- The method `Add` on a record of the bound type, in closed form. -/
theorem Mapper.Add_eq {m : Mapper} {r s : Value} (hb : m.Bound) (ht : TypeOf r = some m.typ)
    (hr : r.record = some s) :
    m.Add r = some ((m.addByPk (r.attr m.pkName) r).mapIndexes
      (fun a idx => idx.add (r.attr a) (r.attr m.pkName)), none) := by
  obtain ⟨hval, n, fs, vals, rfl⟩ := Mapper.record_val hb ht hr
  unfold Mapper.Add
  rw [if_neg (by simp [ht]), hval]
  simp only [Option.some_bind, Value.FieldByName, ← Value.attr_eq hr]
  have := Mapper.foldlM_keys (fun a idx => idx.add (r.attr a) (r.attr m.pkName))
    (fun (st : Mapper) indexName => st.addByIndex indexName (r.attr indexName) (r.attr m.pkName))
    (fun st a idx h => Mapper.addByIndex_eq _ _ h) (m.addByPk (r.attr m.pkName) r)
  have hk : (m.addByPk (r.attr m.pkName) r).indexes.keys = m.indexes.keys := rfl
  rw [hk] at this
  rw [this]
  rfl

/-- The method `Remove` on a record of the bound type, in closed form. -/
theorem Mapper.Remove_eq {m : Mapper} {r s : Value} (hb : m.Bound) (ht : TypeOf r = some m.typ)
    (hr : r.record = some s) :
    m.Remove r = some ((m.removeByPk (r.attr m.pkName)).mapIndexes
      (fun a idx => idx.remove (r.attr a) (r.attr m.pkName)), none) := by
  obtain ⟨hval, n, fs, vals, rfl⟩ := Mapper.record_val hb ht hr
  unfold Mapper.Remove
  rw [if_neg (by simp [ht]), hval]
  simp only [Option.some_bind, Value.FieldByName, ← Value.attr_eq hr]
  have := Mapper.foldlM_keys (fun a idx => idx.remove (r.attr a) (r.attr m.pkName))
    (fun (st : Mapper) indexName => st.removeByIndex indexName (r.attr indexName) (r.attr m.pkName))
    (fun st a idx h => Mapper.removeByIndex_eq _ _ h) (m.removeByPk (r.attr m.pkName))
  have hk : (m.removeByPk (r.attr m.pkName)).indexes.keys = m.indexes.keys := rfl
  rw [hk] at this
  rw [this]
  rfl

theorem index.lookup_add (idx : index) (v k v' : String) :
    (idx.add v k).m.lookup v' =
      if v' = v then some (insert k ((idx.m.lookup v).getD ∅)) else idx.m.lookup v' := by
  unfold index.add
  by_cases e : v' = v
  · subst e; simp
  · simp [e, Finmap.lookup_insert_of_ne]

theorem index.lookup_remove (idx : index) (v k v' : String) :
    (idx.remove v k).m.lookup v' =
      if v' = v then
        (idx.m.lookup v).bind fun pks => if pks.erase k = ∅ then none else some (pks.erase k)
      else idx.m.lookup v' := by
  unfold index.remove
  cases hv : idx.m.lookup v with
  | none =>
    by_cases e : v' = v
    · subst e; simp [hv]
    · simp [e]
  | some pks =>
    by_cases he : pks.erase k = ∅
    · by_cases e : v' = v
      · subst e; simp [he]
      · simp [e, he, Finmap.lookup_erase_ne]
    · by_cases e : v' = v
      · subst e; simp [he]
      · simp [e, he, Finmap.lookup_insert_of_ne]

theorem Mapper.bucket_mapIndexes (m : Mapper) (g : String → index → index) (a v : String) :
    (m.mapIndexes g).bucket a v = (m.indexes.lookup a).bind fun idx => (g a idx).m.lookup v := by
  unfold Mapper.bucket
  rw [Mapper.lookup_mapIndexes]
  cases m.indexes.lookup a <;> rfl

@[simp] theorem Mapper.mapIndexes_pk (m : Mapper) (g : String → index → index) :
    (m.mapIndexes g).pk = m.pk := rfl

@[simp] theorem Mapper.mapIndexes_pkName (m : Mapper) (g : String → index → index) :
    (m.mapIndexes g).pkName = m.pkName := rfl

@[simp] theorem Mapper.mapIndexes_typ (m : Mapper) (g : String → index → index) :
    (m.mapIndexes g).typ = m.typ := rfl

@[simp] theorem Mapper.mapIndexes_eleTyp (m : Mapper) (g : String → index → index) :
    (m.mapIndexes g).eleTyp = m.eleTyp := rfl

@[simp] theorem Mapper.addByPk_pk (m : Mapper) (k : String) (obj : Value) :
    (m.addByPk k obj).pk.m = m.pk.m.insert k obj := rfl

@[simp] theorem Mapper.addByPk_pkName (m : Mapper) (k : String) (obj : Value) :
    (m.addByPk k obj).pkName = m.pkName := rfl

@[simp] theorem Mapper.addByPk_typ (m : Mapper) (k : String) (obj : Value) :
    (m.addByPk k obj).typ = m.typ := rfl

@[simp] theorem Mapper.addByPk_eleTyp (m : Mapper) (k : String) (obj : Value) :
    (m.addByPk k obj).eleTyp = m.eleTyp := rfl

@[simp] theorem Mapper.addByPk_indexes (m : Mapper) (k : String) (obj : Value) :
    (m.addByPk k obj).indexes = m.indexes := rfl

@[simp] theorem Mapper.removeByPk_pk (m : Mapper) (k : String) :
    (m.removeByPk k).pk.m = m.pk.m.erase k := rfl

@[simp] theorem Mapper.removeByPk_pkName (m : Mapper) (k : String) :
    (m.removeByPk k).pkName = m.pkName := rfl

@[simp] theorem Mapper.removeByPk_typ (m : Mapper) (k : String) :
    (m.removeByPk k).typ = m.typ := rfl

@[simp] theorem Mapper.removeByPk_eleTyp (m : Mapper) (k : String) :
    (m.removeByPk k).eleTyp = m.eleTyp := rfl

@[simp] theorem Mapper.removeByPk_indexes (m : Mapper) (k : String) :
    (m.removeByPk k).indexes = m.indexes := rfl

theorem finmap_lookup_insert_ite {γ : Type} (s : Finmap (fun _ : String => γ)) (a : String) (b : γ)
    (x : String) : (s.insert a b).lookup x = if x = a then some b else s.lookup x := by
  by_cases e : x = a
  · subst e; simp
  · simp [e, Finmap.lookup_insert_of_ne]

theorem finmap_lookup_erase_ite {γ : Type} (s : Finmap (fun _ : String => γ)) (a : String)
    (x : String) : (s.erase a).lookup x = if x = a then none else s.lookup x := by
  by_cases e : x = a
  · subst e; simp
  · simp [e, Finmap.lookup_erase_ne]

/-- The result of `Get` in terms of the primary map and the buckets. -/
theorem Mapper.Get_closed (m : Mapper) (n v : String) :
    m.Get n v = some (if n = m.pkName then
        ((m.pk.m.lookup v).map fun obj => ({obj} : Multiset Value)).getD 0
      else
        ((m.bucket n v).map fun pks => pks.val.filterMap fun k => m.pk.m.lookup k).getD 0) := by
  unfold Mapper.Get
  by_cases hn : n = m.pkName
  · simp only [hn, if_true, Mapper.getByPk]
    cases m.pk.m.lookup v <;> rfl
  · simp only [hn, if_false]
    have hrange : ∀ ks : List String, (∀ a ∈ ks, a ∈ m.indexes) →
        Mapper.Get.range m n v ks = if n ∈ ks then m.getByIndex n v else some 0 := by
      intro ks
      induction ks with
      | nil => intro _; simp [Mapper.Get.range]
      | cons k ks ih =>
        intro h
        by_cases e : n = k
        · simp [Mapper.Get.range, e]
        · simp [Mapper.Get.range, e, ih fun a ha => h a (List.mem_cons_of_mem _ ha)]
    rw [hrange _ fun a ha => AList.mem_keys.2 ha]
    unfold Mapper.bucket Mapper.getByIndex Mapper.getByPk
    by_cases hmem : n ∈ m.indexes.keys
    · obtain ⟨idx, hidx⟩ := Option.isSome_iff_exists.1 (AList.lookup_isSome.2 (AList.mem_keys.2 hmem))
      simp only [hmem, if_true, hidx, Option.some_bind]
      cases idx.m.lookup v <;> rfl
    · have : m.indexes.lookup n = none := AList.lookup_eq_none.2 fun h => hmem (AList.mem_keys.1 h)
      simp [hmem, this]

theorem Mapper.bucket_add (m : Mapper) (k : String) (obj : Value) (f : String → String) (a v : String) :
    ((m.addByPk k obj).mapIndexes fun a idx => idx.add (f a) k).bucket a v =
      if a ∈ m.indexes ∧ v = f a then some (insert k ((m.bucket a v).getD ∅)) else m.bucket a v := by
  rw [Mapper.bucket_mapIndexes]
  show ((m.indexes.lookup a).bind fun idx => (idx.add (f a) k).m.lookup v) = _
  unfold Mapper.bucket
  cases h : m.indexes.lookup a with
  | none =>
    have : a ∉ m.indexes := AList.lookup_eq_none.1 h
    simp [this]
  | some idx =>
    have : a ∈ m.indexes := AList.lookup_isSome.1 (by simp [h])
    by_cases e : v = f a
    · subst e; simp [this, index.lookup_add]
    · simp [e, index.lookup_add]

theorem Mapper.bucket_remove (m : Mapper) (k : String) (f : String → String) (a v : String) :
    ((m.removeByPk k).mapIndexes fun a idx => idx.remove (f a) k).bucket a v =
      if v = f a then
        (m.bucket a v).bind fun pks => if pks.erase k = ∅ then none else some (pks.erase k)
      else m.bucket a v := by
  rw [Mapper.bucket_mapIndexes]
  show ((m.indexes.lookup a).bind fun idx => (idx.remove (f a) k).m.lookup v) = _
  unfold Mapper.bucket
  cases h : m.indexes.lookup a with
  | none => simp
  | some idx =>
    by_cases e : v = f a
    · subst e; simp [index.lookup_remove]
    · simp [e, index.lookup_remove]

/-! ## The field loop of `NewMapper` -/

theorem structMapPk_ne_index : structMapPk ≠ structMapIndex := by decide

theorem NewMapper.fieldLoop_error :
    ∀ (fs : List StructField) (mp : Mapper) (c : Nat),
      (∃ f ∈ fs, (f.isPk ∨ f.isIndex) ∧ f.Kind ≠ Kind.String) →
      NewMapper.fieldLoop fs mp c = .error Error.ErrPkIndexNotString
  | [], _, _, h => by simp at h
  | f :: fs, mp, c, h => by
    unfold NewMapper.fieldLoop
    simp only [StructField.isPk, StructField.isIndex, decide_eq_true_eq] at h
    by_cases ht : f.Tag.Get tagName = structMapPk ∨ f.Tag.Get tagName = structMapIndex
    · by_cases hk : f.Kind = Kind.String
      · have h' : ∃ f ∈ fs, (f.isPk ∨ f.isIndex) ∧ f.Kind ≠ Kind.String := by
          obtain ⟨g, hg, hg'⟩ := h
          rcases List.mem_cons.1 hg with rfl | hg
          · exact absurd hk hg'.2
          · exact ⟨g, hg, by simpa [StructField.isPk, StructField.isIndex] using hg'⟩
        by_cases hp : f.Tag.Get tagName = structMapPk
        · simp [ht, hk, hp, NewMapper.fieldLoop_error fs _ _ h']
        · simp [ht, hk, hp, NewMapper.fieldLoop_error fs _ _ h']
      · simp [ht, hk]
    · have h' : ∃ f ∈ fs, (f.isPk ∨ f.isIndex) ∧ f.Kind ≠ Kind.String := by
        obtain ⟨g, hg, hg'⟩ := h
        rcases List.mem_cons.1 hg with rfl | hg
        · exact absurd hg'.1 ht
        · exact ⟨g, hg, by simpa [StructField.isPk, StructField.isIndex] using hg'⟩
      simp [ht, NewMapper.fieldLoop_error fs _ _ h']

theorem NewMapper.fieldLoop_ok :
    ∀ (fs : List StructField) (mp : Mapper) (c : Nat),
      (∀ f ∈ fs, (f.isPk ∨ f.isIndex) → f.Kind = Kind.String) →
      ∃ mp', NewMapper.fieldLoop fs mp c = .ok (mp', c + fs.countP StructField.isPk) ∧
        mp'.typ = mp.typ ∧ mp'.eleTyp = mp.eleTyp ∧ mp'.pk = mp.pk ∧
        (∀ a, a ∈ mp'.indexes ↔ a ∈ mp.indexes ∨ ∃ f ∈ fs, f.isIndex ∧ f.Name = a) ∧
        (∀ a idx, mp'.indexes.lookup a = some idx → idx.m = ∅ ∨ mp.indexes.lookup a = some idx) ∧
        ((fs.countP StructField.isPk = 0 ∧ mp'.pkName = mp.pkName) ∨
          ∃ f ∈ fs, f.isPk ∧ mp'.pkName = f.Name)
  | [], mp, c, _ =>
    ⟨mp, by simp [NewMapper.fieldLoop], rfl, rfl, rfl, by simp, fun _ _ h => Or.inr h, by simp⟩
  | f :: fs, mp, c, h => by
    have hfs : ∀ g ∈ fs, (g.isPk ∨ g.isIndex) → g.Kind = Kind.String :=
      fun g hg => h g (List.mem_cons_of_mem _ hg)
    unfold NewMapper.fieldLoop
    by_cases hp : f.Tag.Get tagName = structMapPk
    · have hk : f.Kind = Kind.String :=
        h f (List.mem_cons_self _ _) (Or.inl (by simp [StructField.isPk, hp]))
      have hpk : f.isPk = true := by simp [StructField.isPk, hp]
      obtain ⟨mp', h1, h2, h3, h4, h5, h6, h7⟩ :=
        NewMapper.fieldLoop_ok fs { mp with pkName := f.Name } (c + 1) hfs
      refine ⟨mp', ?_, h2, h3, h4, fun a => ?_, h6, Or.inr ?_⟩
      · simp only [hp, true_or, not_true_eq_false, if_false, hk, ne_eq, if_true, h1,
          List.countP_cons_of_pos _ _ hpk]
        congr 2
        omega
      · rw [h5 a]
        constructor
        · rintro (h | ⟨g, hg, hg'⟩)
          · exact Or.inl h
          · exact Or.inr ⟨g, List.mem_cons_of_mem _ hg, hg'⟩
        · rintro (h | ⟨g, hg, hg'⟩)
          · exact Or.inl h
          · rcases List.mem_cons.1 hg with rfl | hg
            · exfalso
              have : g.Tag.Get tagName = structMapIndex := by
                simpa [StructField.isIndex] using hg'.1
              exact structMapPk_ne_index (hp.symm.trans this)
            · exact Or.inr ⟨g, hg, hg'⟩
      · rcases h7 with ⟨-, h7⟩ | ⟨g, hg, hg'⟩
        · exact ⟨f, List.mem_cons_self _ _, hpk, h7⟩
        · exact ⟨g, List.mem_cons_of_mem _ hg, hg'⟩
    · have hnpk : ¬ f.isPk = true := by simp [StructField.isPk, hp]
      by_cases hi : f.Tag.Get tagName = structMapIndex
      · have hk : f.Kind = Kind.String :=
          h f (List.mem_cons_self _ _) (Or.inr (by simp [StructField.isIndex, hi]))
        obtain ⟨mp', h1, h2, h3, h4, h5, h6, h7⟩ :=
          NewMapper.fieldLoop_ok fs { mp with indexes := mp.indexes.insert f.Name ⟨∅⟩ } c hfs
        refine ⟨mp', ?_, h2, h3, h4, fun a => ?_, fun a idx hl => ?_, ?_⟩
        · have hne : ¬ structMapIndex = structMapPk := fun e => structMapPk_ne_index e.symm
          simp only [hi, or_true, not_true_eq_false, if_false, hk, ne_eq, if_true, hne, h1,
            List.countP_cons_of_neg _ _ hnpk]
        · rw [h5 a]
          simp only [AList.mem_insert]
          constructor
          · rintro ((h | h) | ⟨g, hg, hg'⟩)
            · exact Or.inr ⟨f, List.mem_cons_self _ _, by simp [StructField.isIndex, hi], h.symm⟩
            · exact Or.inl h
            · exact Or.inr ⟨g, List.mem_cons_of_mem _ hg, hg'⟩
          · rintro (h | ⟨g, hg, hg'⟩)
            · exact Or.inl (Or.inr h)
            · rcases List.mem_cons.1 hg with rfl | hg
              · exact Or.inl (Or.inl hg'.2.symm)
              · exact Or.inr ⟨g, hg, hg'⟩
        · rcases h6 a idx hl with h | h
          · exact Or.inl h
          · by_cases e : a = f.Name
            · subst e
              rw [show ({ mp with indexes := mp.indexes.insert f.Name ⟨∅⟩ } : Mapper).indexes =
                mp.indexes.insert f.Name ⟨∅⟩ from rfl, AList.lookup_insert] at h
              left
              rw [← Option.some.inj h]
            · rw [show ({ mp with indexes := mp.indexes.insert f.Name ⟨∅⟩ } : Mapper).indexes =
                mp.indexes.insert f.Name ⟨∅⟩ from rfl, AList.lookup_insert_ne e] at h
              exact Or.inr h
        · rcases h7 with ⟨h7, h8⟩ | ⟨g, hg, hg'⟩
          · exact Or.inl ⟨by rw [List.countP_cons_of_neg _ _ hnpk]; exact h7, h8⟩
          · exact Or.inr ⟨g, List.mem_cons_of_mem _ hg, hg'⟩
      · obtain ⟨mp', h1, h2, h3, h4, h5, h6, h7⟩ := NewMapper.fieldLoop_ok fs mp c hfs
        refine ⟨mp', ?_, h2, h3, h4, fun a => ?_, h6, ?_⟩
        · simp only [hp, hi, or_self, not_false_eq_true, if_true, h1,
            List.countP_cons_of_neg _ _ hnpk]
        · rw [h5 a]
          constructor
          · rintro (h | ⟨g, hg, hg'⟩)
            · exact Or.inl h
            · exact Or.inr ⟨g, List.mem_cons_of_mem _ hg, hg'⟩
          · rintro (h | ⟨g, hg, hg'⟩)
            · exact Or.inl h
            · rcases List.mem_cons.1 hg with rfl | hg
              · exfalso
                exact hi (by simpa [StructField.isIndex] using hg'.1)
              · exact Or.inr ⟨g, hg, hg'⟩
        · rcases h7 with ⟨h7, h8⟩ | ⟨g, hg, hg'⟩
          · exact Or.inl ⟨by rw [List.countP_cons_of_neg _ _ hnpk]; exact h7, h8⟩
          · exact Or.inr ⟨g, List.mem_cons_of_mem _ hg, hg'⟩

/-- The function `NewMapper` on a struct, or a pointer to a struct: what is
left is the field loop and the count test. -/
theorem NewMapper_struct {obj : Value} {t : GoType} {n : String} {fs : List StructField}
    (ht : TypeOf obj = some t) (hs : t = .struct n fs ∨ t = .ptr (.struct n fs)) :
    NewMapper obj =
      match NewMapper.fieldLoop fs
        { typ := t, eleTyp := .struct n fs, pkName := "", pk := ⟨∅⟩, indexes := ∅ } 0 with
      | .error e => some (.error e)
      | .ok (mapper, pkCount) =>
        if pkCount ≠ 1 then some (.error Error.ErrPk) else some (.ok mapper) := by
  unfold NewMapper
  rw [ht]
  rcases hs with rfl | rfl <;> simp [GoType.Kind, GoType.Elem, GoType.Fields]

/-- The function `NewMapper` on a value whose type, one pointer level stripped,
is not a struct type. -/
theorem NewMapper_notStruct {obj : Value} {t : GoType} (ht : TypeOf obj = some t)
    (hs : ∀ n fs, t ≠ .struct n fs ∧ t ≠ .ptr (.struct n fs)) :
    NewMapper obj = some (.error Error.ErrNotStruct) := by
  unfold NewMapper
  rw [ht]
  cases t with
  | basic k name =>
    have := k.2
    simp [GoType.Kind, this.1, this.2]
  | struct n fs => exact absurd rfl (hs n fs).1
  | ptr e =>
    cases e with
    | basic k name =>
      have := k.2
      simp [GoType.Kind, GoType.Elem, this.2]
    | struct n fs => exact absurd rfl (hs n fs).2
    | ptr e' => simp [GoType.Kind, GoType.Elem]

/-- What a store returned by `NewMapper` looks like. -/
theorem NewMapper_ok {obj : Value} {m : Mapper} (h : NewMapper obj = some (.ok m)) :
    m.Bound ∧ TypeOf obj = some m.typ ∧ m.pk.m = ∅ ∧
      ∀ a idx, m.indexes.lookup a = some idx → idx.m = ∅ := by
  cases ht : TypeOf obj with
  | none => simp [NewMapper, ht] at h
  | some t =>
    by_cases hs : ∃ n fs, t = .struct n fs ∨ t = .ptr (.struct n fs)
    · obtain ⟨n, fs, hs⟩ := hs
      rw [NewMapper_struct ht hs] at h
      by_cases hbad : ∃ f ∈ fs, (f.isPk ∨ f.isIndex) ∧ f.Kind ≠ Kind.String
      · rw [NewMapper.fieldLoop_error fs _ _ hbad] at h
        simp at h
      · have hgood : ∀ f ∈ fs, (f.isPk ∨ f.isIndex) → f.Kind = Kind.String := by
          intro f hf hft
          by_contra hk
          exact hbad ⟨f, hf, hft, hk⟩
        obtain ⟨mp', h1, h2, h3, h4, -, h6, -⟩ := NewMapper.fieldLoop_ok fs
          { typ := t, eleTyp := .struct n fs, pkName := "", pk := ⟨∅⟩, indexes := ∅ } 0 hgood
        rw [Nat.zero_add] at h1
        rw [h1] at h
        by_cases hc : List.countP StructField.isPk fs = 1
        · simp only [hc, ne_eq, not_true_eq_false, if_false, Option.some.injEq,
            Except.ok.injEq] at h
          subst h
          refine ⟨⟨by rw [h3]; rfl, ?_⟩, by rw [h2], by rw [h4], fun a idx hl => ?_⟩
          · rw [h2, h3]
            rcases hs with rfl | rfl
            · exact Or.inl rfl
            · exact Or.inr rfl
          · rcases h6 a idx hl with h | h
            · exact h
            · simp at h
        · simp [hc] at h
    · have hs' : ∀ n fs, t ≠ .struct n fs ∧ t ≠ .ptr (.struct n fs) := by
        intro n fs
        constructor
        · intro e; exact hs ⟨n, fs, Or.inl e⟩
        · intro e; exact hs ⟨n, fs, Or.inr e⟩
      rw [NewMapper_notStruct ht hs'] at h
      simp at h

/-! ## Invariants of the reachable states -/

theorem TypeOf_struct_kind {v : Value} {t : GoType} (ht : TypeOf v = some t)
    (hk : t.Kind = Kind.Struct) : ∃ n fs vals, v = .struct n fs vals := by
  cases v with
  | invalid => simp [TypeOf] at ht
  | basic k n c =>
    simp only [TypeOf] at ht
    split at ht
    · next h =>
      simp only [Option.some.injEq] at ht
      subst ht
      exact absurd hk h.2
    · simp at ht
  | struct n fs vals => exact ⟨n, fs, vals, rfl⟩
  | nilptr e =>
    simp only [TypeOf, Option.some.injEq] at ht
    subst ht
    simp [GoType.Kind] at hk
  | ptr a v =>
    simp only [TypeOf, Option.map_eq_some'] at ht
    obtain ⟨t', -, rfl⟩ := ht
    simp [GoType.Kind] at hk

/-- A value of the bound type is a record or a nil pointer. -/
theorem Mapper.typed_cases {m : Mapper} {obj : Value} (hb : m.Bound)
    (ht : TypeOf obj = some m.typ) :
    obj.record.isSome ∨ ∃ e, obj = .nilptr e ∧ m.typ ≠ m.eleTyp := by
  obtain ⟨hk, hty⟩ := hb
  rcases hty with h | h
  · obtain ⟨n, fs, vals, rfl⟩ := TypeOf_struct_kind ht (h ▸ hk)
    exact Or.inl rfl
  · cases obj with
    | invalid => simp [TypeOf] at ht
    | basic k n c =>
      simp only [TypeOf] at ht
      split at ht
      · simp only [Option.some.injEq] at ht
        rw [← ht] at h
        cases h
      · simp at ht
    | struct n fs vals =>
      simp only [TypeOf, Option.some.injEq] at ht
      rw [← ht] at h
      cases h
    | nilptr e =>
      refine Or.inr ⟨e, rfl, ?_⟩
      rw [h]
      exact GoType.ptr_ne_self _
    | ptr a v =>
      simp only [TypeOf, Option.map_eq_some'] at ht
      obtain ⟨t', ht', h'⟩ := ht
      rw [h] at h'
      obtain rfl := GoType.ptr.inj h'
      obtain ⟨n, fs, vals, rfl⟩ := TypeOf_struct_kind ht' hk
      exact Or.inl rfl

/-- On a nil pointer of the bound type `Add` panics. -/
theorem Mapper.Add_nilptr {m : Mapper} {e : GoType} (ht : TypeOf (.nilptr e) = some m.typ)
    (hne : m.typ ≠ m.eleTyp) : m.Add (.nilptr e) = none := by
  simp [Mapper.Add, ht, hne, Value.Elem, Value.FieldByName]

/-- On a nil pointer of the bound type `Remove` panics. -/
theorem Mapper.Remove_nilptr {m : Mapper} {e : GoType} (ht : TypeOf (.nilptr e) = some m.typ)
    (hne : m.typ ≠ m.eleTyp) : m.Remove (.nilptr e) = none := by
  simp [Mapper.Remove, ht, hne, Value.Elem, Value.FieldByName]

theorem Mapper.Add_cases {m : Mapper} {obj : Value} {m' : Mapper} {e : Option Error}
    (hb : m.Bound) (h : m.Add obj = some (m', e)) :
    m' = m ∨ m' = (m.addByPk (obj.attr m.pkName) obj).mapIndexes
      (fun a idx => idx.add (obj.attr a) (obj.attr m.pkName)) := by
  by_cases ht : TypeOf obj = some m.typ
  · rcases Mapper.typed_cases hb ht with hr | ⟨e', rfl, hne⟩
    · obtain ⟨s, hs⟩ := Option.isSome_iff_exists.1 hr
      rw [Mapper.Add_eq hb ht hs] at h
      simp only [Option.some.injEq, Prod.mk.injEq] at h
      exact Or.inr h.1.symm
    · rw [Mapper.Add_nilptr ht hne] at h
      simp at h
  · simp only [Mapper.Add, ne_eq, ht, not_false_eq_true, if_true, Option.some.injEq,
      Prod.mk.injEq] at h
    exact Or.inl h.1.symm

theorem Mapper.Remove_cases {m : Mapper} {obj : Value} {m' : Mapper} {e : Option Error}
    (hb : m.Bound) (h : m.Remove obj = some (m', e)) :
    m' = m ∨ m' = (m.removeByPk (obj.attr m.pkName)).mapIndexes
      (fun a idx => idx.remove (obj.attr a) (obj.attr m.pkName)) := by
  by_cases ht : TypeOf obj = some m.typ
  · rcases Mapper.typed_cases hb ht with hr | ⟨e', rfl, hne⟩
    · obtain ⟨s, hs⟩ := Option.isSome_iff_exists.1 hr
      rw [Mapper.Remove_eq hb ht hs] at h
      simp only [Option.some.injEq, Prod.mk.injEq] at h
      exact Or.inr h.1.symm
    · rw [Mapper.Remove_nilptr ht hne] at h
      simp at h
  · simp only [Mapper.Remove, ne_eq, ht, not_false_eq_true, if_true, Option.some.injEq,
      Prod.mk.injEq] at h
    exact Or.inl h.1.symm

/-- Every reachable store has the schema `NewMapper` gave it and no empty bucket. -/
theorem Reachable.invariant {m : Mapper} (h : Reachable m) : m.Bound ∧ m.NoEmptyBucket := by
  induction h with
  | new obj m h =>
    obtain ⟨hb, -, -, hidx⟩ := NewMapper_ok h
    refine ⟨hb, fun a v b hbk => ?_⟩
    unfold Mapper.bucket at hbk
    obtain ⟨idx, hl, hv⟩ := Option.bind_eq_some.1 hbk
    rw [hidx a idx hl] at hv
    simp at hv
  | add m m' obj e _ h ih =>
    rcases Mapper.Add_cases ih.1 h with rfl | rfl
    · exact ih
    · refine ⟨ih.1, fun a v b hbk => ?_⟩
      rw [Mapper.bucket_add] at hbk
      split at hbk
      · simp only [Option.some.injEq] at hbk
        rw [← hbk]
        exact Finset.insert_ne_empty _ _
      · exact ih.2 a v b hbk
  | remove m m' obj e _ h ih =>
    rcases Mapper.Remove_cases ih.1 h with rfl | rfl
    · exact ih
    · refine ⟨ih.1, fun a v b hbk => ?_⟩
      rw [Mapper.bucket_remove] at hbk
      split at hbk
      · obtain ⟨pks, -, h'⟩ := Option.bind_eq_some.1 hbk
        split at h'
        · simp at h'
        · next hne =>
          simp only [Option.some.injEq] at h'
          rw [← h']
          exact hne
      · exact ih.2 a v b hbk

theorem index.remove_add (idx : index) (v k : String)
    (h : ∀ b, idx.m.lookup v = some b → b ≠ ∅ ∧ k ∉ b) : (idx.add v k).remove v k = idx := by
  have : ((idx.add v k).remove v k).m = idx.m := by
    apply Finmap.ext_lookup
    intro x
    rw [index.lookup_remove, index.lookup_add, if_pos rfl]
    by_cases e : x = v
    · subst e
      cases hl : idx.m.lookup x with
      | none => simp
      | some b =>
        obtain ⟨hne, hk⟩ := h b hl
        simp [Finset.erase_insert hk, hne]
    · simp [e, index.lookup_add]
  cases idx
  cases h' : (index.add _ v k).remove v k
  simp only [h'] at this
  simp [this]

theorem filterMap_lookup_eq (pkm : Finmap (fun _ : String => Value)) (ks : Multiset String) :
    (ks.filterMap fun k => pkm.lookup k) =
      (ks.filter fun k => k ∈ pkm).map fun k => (pkm.lookup k).getD .invalid := by
  induction ks using Multiset.induction_on with
  | empty => simp
  | cons k ks ih =>
    cases hl : pkm.lookup k with
    | none =>
      have : k ∉ pkm := Finmap.lookup_eq_none.1 hl
      rw [Multiset.filterMap_cons_none (f := fun k => pkm.lookup k) k ks hl,
        Multiset.filter_cons_of_neg _ this, ih]
    | some o =>
      have : k ∈ pkm := Finmap.mem_of_lookup_eq_some hl
      rw [Multiset.filterMap_cons_some (fun k => pkm.lookup k) k ks hl,
        Multiset.filter_cons_of_pos _ this, Multiset.map_cons, ih, hl]
      rfl

/-! ## The tests of `struct_map_test.go`, run on the model -/

theorem test_NewMapper : NewMapper (mkBook 0 "" "" "") = some (.ok bookMapper) := by decide

theorem test_NewMapper_notStruct :
    NewMapper (.basic Kind.Map "map[string]string" "") = some (.error Error.ErrNotStruct) := by
  decide

theorem test_Add_Error : bookMapper.Add noPkIntIndex = some (bookMapper, some Error.ErrDifferentType) := by
  decide

theorem test_Add :
    bookMapper.Add book1 = some
      ({ bookMapper with
          pk := ⟨Finmap.singleton "1" book1⟩
          indexes := AList.insert "Author" ⟨Finmap.singleton "Charlotte Bronte" {"1"}⟩
            (AList.insert "Title" ⟨Finmap.singleton "Jane Eyre" {"1"}⟩ ∅) }, none) := by
  decide

theorem test_Get_pk :
    (bookMapper.Add book1).bind (fun s => s.1.Get "Id" "1") = some {book1} := by decide

theorem test_Get_index :
    (bookMapper.Add book1).bind (fun s => s.1.Get "Title" "Jane Eyre") = some {book1} := by decide

theorem test_Get_two :
    ((bookMapper.Add book1).bind fun s => s.1.Add book2).bind
      (fun s => some [s.1.Get "Id" "1", s.1.Get "Title" "Gone With the Wind",
        s.1.Get "Id" "99", s.1.Get "Nonexistent" "x"])
      = some [some {book1}, some {book2}, some 0, some 0] := by
  decide

theorem test_Remove :
    (bookMapper.Add book1).bind (fun s => s.1.Remove book1) = some (bookMapper, none) := by decide

theorem bookMapper_reachable : Reachable bookMapper :=
  Reachable.new (mkBook 0 "" "" "") bookMapper test_NewMapper

theorem bookMapper_bucket (a v : String) : bookMapper.bucket a v = none := by
  obtain ⟨-, -, -, h⟩ := NewMapper_ok test_NewMapper
  unfold Mapper.bucket
  cases hl : bookMapper.indexes.lookup a with
  | none => rfl
  | some idx => simp [h a idx hl]

/-! ## The claims -/

/-- C1. `Add` on a record `r` of the bound type, with `k` the value of its
primary-key attribute, returns no error; afterwards the primary map is the old
one with `k` mapped to `r`, the index names are the same, and in every index
`a` the bucket of `r`'s `a`-value is the old bucket (empty when absent) with
`k` inserted, every other bucket of every index being unchanged. -/
theorem Add_postcondition (m : Mapper) (r : Value) (hb : m.Bound)
    (ht : TypeOf r = some m.typ) (hr : r.record.isSome) :
    ∃ m', m.Add r = some (m', none) ∧
      (∀ k', m'.pk.m.lookup k' =
        if k' = r.attr m.pkName then some r else m.pk.m.lookup k') ∧
      m'.indexes.keys = m.indexes.keys ∧
      (∀ a v, m'.bucket a v =
        if a ∈ m.indexes ∧ v = r.attr a then
          some (insert (r.attr m.pkName) ((m.bucket a v).getD ∅))
        else m.bucket a v) ∧
      m'.typ = m.typ ∧ m'.eleTyp = m.eleTyp ∧ m'.pkName = m.pkName := by
  obtain ⟨s, hs⟩ := Option.isSome_iff_exists.1 hr
  refine ⟨_, Mapper.Add_eq hb ht hs, fun k' => ?_, Mapper.keys_mapIndexes _ _,
    fun a v => Mapper.bucket_add m _ r _ a v, rfl, rfl, rfl⟩
  show (m.pk.m.insert (r.attr m.pkName) r).lookup k' = _
  by_cases e : k' = r.attr m.pkName
  · rw [e]; simp
  · simp [e, Finmap.lookup_insert_of_ne]

theorem Add_postcondition_witness :
    bookMapper.Bound ∧ TypeOf book1 = some bookMapper.typ ∧ book1.record.isSome ∧
    ∃ m', bookMapper.Add book1 = some (m', none) ∧
      (∀ k', m'.pk.m.lookup k' =
        if k' = book1.attr bookMapper.pkName then some book1 else bookMapper.pk.m.lookup k') ∧
      m'.indexes.keys = bookMapper.indexes.keys ∧
      (∀ a v, m'.bucket a v =
        if a ∈ bookMapper.indexes ∧ v = book1.attr a then
          some (insert (book1.attr bookMapper.pkName) ((bookMapper.bucket a v).getD ∅))
        else bookMapper.bucket a v) ∧
      m'.typ = bookMapper.typ ∧ m'.eleTyp = bookMapper.eleTyp ∧ m'.pkName = bookMapper.pkName :=
  ⟨⟨rfl, Or.inr rfl⟩, rfl, rfl, Add_postcondition bookMapper book1 ⟨rfl, Or.inr rfl⟩ rfl rfl⟩

/-- C2. After `Add` of a record `r` of the bound type, `Get` on the primary
attribute and `r`'s primary-key value returns exactly `[r]`, and `Get` on every
secondary index `a` and `r`'s `a`-value returns a sequence that contains `r`. -/
theorem Add_Get_roundtrip (m : Mapper) (r : Value) (hb : m.Bound)
    (ht : TypeOf r = some m.typ) (hr : r.record.isSome) :
    ∃ m', m.Add r = some (m', none) ∧
      m'.Get m'.pkName (r.attr m'.pkName) = some {r} ∧
      ∀ a, a ∈ m'.indexes → ∃ res, m'.Get a (r.attr a) = some res ∧ r ∈ res := by
  obtain ⟨s, hs⟩ := Option.isSome_iff_exists.1 hr
  refine ⟨_, Mapper.Add_eq hb ht hs, ?_, fun a ha => ⟨_, Mapper.Get_closed _ _ _, ?_⟩⟩
  · rw [Mapper.Get_closed]
    simp
  · have ha' : a ∈ m.indexes := by
      rw [AList.mem_keys, Mapper.keys_mapIndexes] at ha
      exact AList.mem_keys.2 ha
    rw [Mapper.bucket_add]
    by_cases e : a = m.pkName
    · subst e; simp
    · simp only [Mapper.mapIndexes_pkName, Mapper.addByPk_pkName, e, if_false, ha', true_and,
        if_true, Option.map_some', Option.getD_some, Mapper.mapIndexes_pk, Mapper.addByPk_pk]
      rw [Multiset.mem_filterMap]
      exact ⟨r.attr m.pkName, Finset.mem_insert_self _ _, by simp⟩

theorem Add_Get_roundtrip_witness :
    bookMapper.Bound ∧ TypeOf book1 = some bookMapper.typ ∧ book1.record.isSome ∧
    ∃ m', bookMapper.Add book1 = some (m', none) ∧
      m'.Get m'.pkName (book1.attr m'.pkName) = some {book1} ∧
      ∀ a, a ∈ m'.indexes → ∃ res, m'.Get a (book1.attr a) = some res ∧ book1 ∈ res :=
  ⟨⟨rfl, Or.inr rfl⟩, rfl, rfl, Add_Get_roundtrip bookMapper book1 ⟨rfl, Or.inr rfl⟩ rfl rfl⟩

/-- C3. In the state reached by `Add(r)` followed by `Remove(r)`, for a record
`r` of the bound type with primary key `k`: `Get` on the primary attribute and
`k` is empty; for every secondary index `a`, `k` is not in the bucket of `r`'s
`a`-value, every element of `Get(a, r's a-value)` is stored under a key other
than `k`, and when `k` was the only member of that bucket the bucket is gone. -/
theorem Remove_completeness (m : Mapper) (r : Value) (hb : m.Bound)
    (ht : TypeOf r = some m.typ) (hr : r.record.isSome) :
    ∃ m' m'', m.Add r = some (m', none) ∧ m'.Remove r = some (m'', none) ∧
      m''.Get m''.pkName (r.attr m''.pkName) = some 0 ∧
      ∀ a, a ∈ m''.indexes →
        (∀ b, m''.bucket a (r.attr a) = some b → r.attr m''.pkName ∉ b) ∧
        (∃ res, m''.Get a (r.attr a) = some res ∧
          ∀ o ∈ res, ∃ k', k' ≠ r.attr m''.pkName ∧ m''.pk.m.lookup k' = some o) ∧
        (m'.bucket a (r.attr a) = some {r.attr m''.pkName} → m''.bucket a (r.attr a) = none) := by
  obtain ⟨s, hs⟩ := Option.isSome_iff_exists.1 hr
  have hadd := Mapper.Add_eq hb ht hs
  have hrem := Mapper.Remove_eq (m := (m.addByPk (r.attr m.pkName) r).mapIndexes
    (fun a idx => idx.add (r.attr a) (r.attr m.pkName))) (r := r) hb ht hs
  have hbuck : ∀ a b, (((m.addByPk (r.attr m.pkName) r).mapIndexes
      (fun a idx => idx.add (r.attr a) (r.attr m.pkName))).removeByPk (r.attr m.pkName)
        |>.mapIndexes (fun a idx => idx.remove (r.attr a) (r.attr m.pkName))).bucket a (r.attr a)
        = some b → r.attr m.pkName ∉ b := by
    intro a b h
    rw [Mapper.bucket_remove, if_pos rfl] at h
    obtain ⟨pks, -, h⟩ := Option.bind_eq_some.1 h
    by_cases e : pks.erase (r.attr m.pkName) = ∅
    · simp [e] at h
    · simp only [e, if_false, Option.some.injEq] at h
      rw [← h]
      exact Finset.not_mem_erase _ _
  refine ⟨_, _, hadd, hrem, ?_, fun a ha => ⟨fun b hbk => hbuck a b hbk,
    ⟨_, Mapper.Get_closed _ _ _, fun o ho => ?_⟩, fun h1 => ?_⟩⟩
  · rw [Mapper.Get_closed]
    simp
  · simp only [Mapper.mapIndexes_pkName, Mapper.removeByPk_pkName, Mapper.addByPk_pkName,
      Mapper.mapIndexes_pk, Mapper.removeByPk_pk, Mapper.addByPk_pk] at ho ⊢
    by_cases e : a = m.pkName
    · subst e
      simp at ho
    · simp only [e, if_false] at ho
      cases hbk : Mapper.bucket _ a (r.attr a) with
      | none => rw [hbk] at ho; simp at ho
      | some pks =>
        rw [hbk] at ho
        simp only [Option.map_some', Option.getD_some, Multiset.mem_filterMap] at ho
        obtain ⟨k', -, hk'⟩ := ho
        refine ⟨k', fun h => ?_, hk'⟩
        rw [h] at hk'
        simp at hk'
  · rw [Mapper.bucket_remove, if_pos rfl, h1]
    simp

theorem Remove_completeness_witness :
    bookMapper.Bound ∧ TypeOf book1 = some bookMapper.typ ∧ book1.record.isSome ∧
    ∃ m' m'', bookMapper.Add book1 = some (m', none) ∧ m'.Remove book1 = some (m'', none) ∧
      m''.Get m''.pkName (book1.attr m''.pkName) = some 0 ∧
      ∀ a, a ∈ m''.indexes →
        (∀ b, m''.bucket a (book1.attr a) = some b → book1.attr m''.pkName ∉ b) ∧
        (∃ res, m''.Get a (book1.attr a) = some res ∧
          ∀ o ∈ res, ∃ k', k' ≠ book1.attr m''.pkName ∧ m''.pk.m.lookup k' = some o) ∧
        (m'.bucket a (book1.attr a) = some {book1.attr m''.pkName} →
          m''.bucket a (book1.attr a) = none) :=
  ⟨⟨rfl, Or.inr rfl⟩, rfl, rfl, Remove_completeness bookMapper book1 ⟨rfl, Or.inr rfl⟩ rfl rfl⟩

/-- C4. For a reachable state `m` and a record `r` of the bound type whose
primary key is neither a key of the primary map nor a member of any bucket,
`Add(r)` followed by `Remove(r)` gives back exactly the state `m`. -/
theorem Remove_undoes_Add (m : Mapper) (r : Value) (hm : Reachable m)
    (ht : TypeOf r = some m.typ) (hr : r.record.isSome)
    (hk : r.attr m.pkName ∉ m.pk.m)
    (hb : ∀ a v b, m.bucket a v = some b → r.attr m.pkName ∉ b) :
    ∃ m', m.Add r = some (m', none) ∧ m'.Remove r = some (m, none) := by
  obtain ⟨hbound, hne⟩ := hm.invariant
  obtain ⟨s, hs⟩ := Option.isSome_iff_exists.1 hr
  refine ⟨_, Mapper.Add_eq hbound ht hs, ?_⟩
  rw [Mapper.Remove_eq (m := (m.addByPk (r.attr m.pkName) r).mapIndexes
    (fun a idx => idx.add (r.attr a) (r.attr m.pkName))) (r := r) hbound ht hs]
  have hpk : (m.pk.m.insert (r.attr m.pkName) r).erase (r.attr m.pkName) = m.pk.m := by
    rw [finmap_erase_insert]
    exact finmap_erase_of_lookup_none (Finmap.lookup_eq_none.2 hk)
  have hidx : ((((m.addByPk (r.attr m.pkName) r).mapIndexes
      (fun a idx => idx.add (r.attr a) (r.attr m.pkName))).removeByPk (r.attr m.pkName)).mapIndexes
        (fun a idx => idx.remove (r.attr a) (r.attr m.pkName))).indexes = m.indexes := by
    apply alist_ext_lookup
    · simp [Mapper.keys_mapIndexes]
    · intro a
      rw [Mapper.lookup_mapIndexes, Mapper.removeByPk_indexes, Mapper.lookup_mapIndexes,
        Mapper.addByPk_indexes]
      cases hl : m.indexes.lookup a with
      | none => rfl
      | some idx =>
        simp only [Option.map_some', Option.some.injEq]
        apply index.remove_add
        intro b hv
        have hbk : m.bucket a (r.attr a) = some b := by
          simp [Mapper.bucket, hl, hv]
        exact ⟨hne a _ b hbk, hb a _ b hbk⟩
  congr 2
  cases m with
  | mk typ eleTyp pkName pk indexes =>
    cases pk with
    | mk pkm =>
      simp only [Mapper.mapIndexes, Mapper.removeByPk, Mapper.addByPk, Mapper.mk.injEq,
        pk.mk.injEq, true_and] at hidx hpk ⊢
      exact ⟨hpk, hidx⟩

theorem Remove_undoes_Add_witness :
    Reachable bookMapper ∧ TypeOf book1 = some bookMapper.typ ∧ book1.record.isSome ∧
    book1.attr bookMapper.pkName ∉ bookMapper.pk.m ∧
    (∀ a v b, bookMapper.bucket a v = some b → book1.attr bookMapper.pkName ∉ b) ∧
    ∃ m', bookMapper.Add book1 = some (m', none) ∧ m'.Remove book1 = some (bookMapper, none) :=
  ⟨bookMapper_reachable, rfl, rfl, by decide, fun a v b h => by simp [bookMapper_bucket] at h,
    Remove_undoes_Add bookMapper book1 bookMapper_reachable rfl rfl (by decide)
      (fun a v b h => by simp [bookMapper_bucket] at h)⟩

/-- C5. On an object whose dynamic type is not the bound type (the nil
interface and the same struct in the other form included), `Add` and `Remove`
return `ErrDifferentType` and leave the store as it was. -/
theorem type_mismatch_rejected (m : Mapper) (obj : Value) (h : TypeOf obj ≠ some m.typ) :
    m.Add obj = some (m, some Error.ErrDifferentType) ∧
      m.Remove obj = some (m, some Error.ErrDifferentType) := by
  simp [Mapper.Add, Mapper.Remove, h]

theorem type_mismatch_rejected_witness :
    TypeOf bookValue ≠ some bookMapper.typ ∧
    bookMapper.Add bookValue = some (bookMapper, some Error.ErrDifferentType) ∧
      bookMapper.Remove bookValue = some (bookMapper, some Error.ErrDifferentType) :=
  ⟨by decide, type_mismatch_rejected bookMapper bookValue (by decide)⟩

/-- C6. On a struct, or a pointer to a struct, whose type has exactly one field
tagged `pk` and whose `pk` and `index` fields are all of kind `String`,
`NewMapper` returns a store bound to the type of its argument, whose primary
attribute is the name of the `pk` field, whose index names are exactly the names
of the `index` fields, and whose primary map and indexes are empty. -/
theorem NewMapper_success (obj : Value) (n : String) (fs : List StructField)
    (ht : TypeOf obj = some (.struct n fs) ∨ TypeOf obj = some (.ptr (.struct n fs)))
    (hone : fs.countP StructField.isPk = 1)
    (hstr : ∀ f ∈ fs, (f.isPk ∨ f.isIndex) → f.Kind = Kind.String) :
    ∃ m, NewMapper obj = some (.ok m) ∧
      TypeOf obj = some m.typ ∧ m.eleTyp = .struct n fs ∧
      (∃ f ∈ fs, f.isPk ∧ m.pkName = f.Name) ∧
      (∀ a, a ∈ m.indexes ↔ ∃ f ∈ fs, f.isIndex ∧ f.Name = a) ∧
      m.pk.m = ∅ ∧
      ∀ a idx, m.indexes.lookup a = some idx → idx.m = ∅ := by
  obtain ⟨t, ht', hs⟩ : ∃ t, TypeOf obj = some t ∧ (t = .struct n fs ∨ t = .ptr (.struct n fs)) := by
    rcases ht with h | h
    · exact ⟨_, h, Or.inl rfl⟩
    · exact ⟨_, h, Or.inr rfl⟩
  obtain ⟨mp', h1, h2, h3, h4, h5, h6, h7⟩ := NewMapper.fieldLoop_ok fs
    { typ := t, eleTyp := .struct n fs, pkName := "", pk := ⟨∅⟩, indexes := ∅ } 0 hstr
  rw [Nat.zero_add, hone] at h1
  refine ⟨mp', ?_, by rw [ht', h2], h3, ?_, fun a => ?_, by rw [h4], fun a idx hl => ?_⟩
  · rw [NewMapper_struct ht' hs, h1]
    simp
  · rcases h7 with ⟨h7, -⟩ | h7
    · rw [hone] at h7; cases h7
    · exact h7
  · rw [h5 a]
    simp
  · rcases h6 a idx hl with h | h
    · exact h
    · simp at h

theorem NewMapper_success_witness :
    (TypeOf book1 = some (.struct "struct_map.Book" BookFields) ∨
      TypeOf book1 = some (.ptr (.struct "struct_map.Book" BookFields))) ∧
    BookFields.countP StructField.isPk = 1 ∧
    (∀ f ∈ BookFields, (f.isPk ∨ f.isIndex) → f.Kind = Kind.String) ∧
    ∃ m, NewMapper book1 = some (.ok m) ∧
      TypeOf book1 = some m.typ ∧ m.eleTyp = .struct "struct_map.Book" BookFields ∧
      (∃ f ∈ BookFields, f.isPk ∧ m.pkName = f.Name) ∧
      (∀ a, a ∈ m.indexes ↔ ∃ f ∈ BookFields, f.isIndex ∧ f.Name = a) ∧
      m.pk.m = ∅ ∧
      ∀ a idx, m.indexes.lookup a = some idx → idx.m = ∅ :=
  ⟨Or.inr rfl, by decide, by decide,
    NewMapper_success book1 "struct_map.Book" BookFields (Or.inr rfl) (by decide) (by decide)⟩

/-- C7 (the failing input). On the nil interface `NewMapper` panics: it calls
`Kind` on the nil `reflect.Type`, where the claim has it return `ErrNotStruct`. -/
theorem NewMapper_nil_panics : NewMapper Value.invalid = none := rfl

/-- C8. On a struct type whose `pk` and `index` fields are all of kind `String`,
`NewMapper` returns `ErrPk` exactly when the number of `pk` fields is not 1, and
it returns a store otherwise. -/
theorem pk_cardinality (obj : Value) (n : String) (fs : List StructField)
    (ht : TypeOf obj = some (.struct n fs) ∨ TypeOf obj = some (.ptr (.struct n fs)))
    (hstr : ∀ f ∈ fs, (f.isPk ∨ f.isIndex) → f.Kind = Kind.String) :
    (NewMapper obj = some (.error Error.ErrPk) ↔ fs.countP StructField.isPk ≠ 1) ∧
      (fs.countP StructField.isPk = 1 → ∃ m, NewMapper obj = some (.ok m)) := by
  obtain ⟨t, ht', hs⟩ : ∃ t, TypeOf obj = some t ∧ (t = .struct n fs ∨ t = .ptr (.struct n fs)) := by
    rcases ht with h | h
    · exact ⟨_, h, Or.inl rfl⟩
    · exact ⟨_, h, Or.inr rfl⟩
  obtain ⟨mp', h1, -⟩ := NewMapper.fieldLoop_ok fs
    { typ := t, eleTyp := .struct n fs, pkName := "", pk := ⟨∅⟩, indexes := ∅ } 0 hstr
  rw [Nat.zero_add] at h1
  rw [NewMapper_struct ht' hs, h1]
  by_cases hc : fs.countP StructField.isPk = 1
  · simp [hc]
  · simp [hc]

theorem pk_cardinality_witness :
    (TypeOf book1 = some (.struct "struct_map.Book" BookFields) ∨
      TypeOf book1 = some (.ptr (.struct "struct_map.Book" BookFields))) ∧
    (∀ f ∈ BookFields, (f.isPk ∨ f.isIndex) → f.Kind = Kind.String) ∧
    (NewMapper book1 = some (.error Error.ErrPk) ↔ BookFields.countP StructField.isPk ≠ 1) ∧
      (BookFields.countP StructField.isPk = 1 → ∃ m, NewMapper book1 = some (.ok m)) :=
  ⟨Or.inr rfl, by decide,
    pk_cardinality book1 "struct_map.Book" BookFields (Or.inr rfl) (by decide)⟩

/-- C9 (counterexample). A struct type with no `pk` field and an `index` field
of kind `Int`: the number of `pk` fields is not 1, and `NewMapper` returns
`ErrPkIndexNotString`, not `ErrPk`. -/
theorem validation_order_counterexample :
    TypeOf noPkIntIndex = some (.struct "struct { Title int }" noPkIntIndexFields) ∧
    noPkIntIndexFields.countP StructField.isPk ≠ 1 ∧
    NewMapper noPkIntIndex = some (.error Error.ErrPkIndexNotString) ∧
    NewMapper noPkIntIndex ≠ some (.error Error.ErrPk) := by
  decide

/-- C9 (amended). The string-kind rule comes first: on a struct type with a `pk`
or `index` field that is not of kind `String`, `NewMapper` returns
`ErrPkIndexNotString` whatever the number of `pk` fields; it returns `ErrPk`
only when every `pk` and `index` field is of kind `String` and the number of
`pk` fields is not 1. -/
theorem validation_order (obj : Value) (n : String) (fs : List StructField)
    (ht : TypeOf obj = some (.struct n fs) ∨ TypeOf obj = some (.ptr (.struct n fs))) :
    ((∃ f ∈ fs, (f.isPk ∨ f.isIndex) ∧ f.Kind ≠ Kind.String) →
        NewMapper obj = some (.error Error.ErrPkIndexNotString)) ∧
      (NewMapper obj = some (.error Error.ErrPk) →
        (∀ f ∈ fs, (f.isPk ∨ f.isIndex) → f.Kind = Kind.String) ∧
          fs.countP StructField.isPk ≠ 1) := by
  obtain ⟨t, ht', hs⟩ : ∃ t, TypeOf obj = some t ∧ (t = .struct n fs ∨ t = .ptr (.struct n fs)) := by
    rcases ht with h | h
    · exact ⟨_, h, Or.inl rfl⟩
    · exact ⟨_, h, Or.inr rfl⟩
  have hbad : (∃ f ∈ fs, (f.isPk ∨ f.isIndex) ∧ f.Kind ≠ Kind.String) →
      NewMapper obj = some (.error Error.ErrPkIndexNotString) := by
    intro h
    rw [NewMapper_struct ht' hs, NewMapper.fieldLoop_error fs _ _ h]
  refine ⟨hbad, fun h => ?_⟩
  have hstr : ∀ f ∈ fs, (f.isPk ∨ f.isIndex) → f.Kind = Kind.String := by
    intro f hf hft
    by_contra hk
    rw [hbad ⟨f, hf, hft, hk⟩] at h
    simp at h
  refine ⟨hstr, fun hc => ?_⟩
  obtain ⟨mp', h1, -⟩ := NewMapper.fieldLoop_ok fs
    { typ := t, eleTyp := .struct n fs, pkName := "", pk := ⟨∅⟩, indexes := ∅ } 0 hstr
  rw [Nat.zero_add, hc] at h1
  rw [NewMapper_struct ht' hs, h1] at h
  simp at h

theorem validation_order_witness :
    (TypeOf noPkIntIndex = some (.struct "struct { Title int }" noPkIntIndexFields) ∨
      TypeOf noPkIntIndex = some (.ptr (.struct "struct { Title int }" noPkIntIndexFields))) ∧
    (((∃ f ∈ noPkIntIndexFields, (f.isPk ∨ f.isIndex) ∧ f.Kind ≠ Kind.String) →
        NewMapper noPkIntIndex = some (.error Error.ErrPkIndexNotString)) ∧
      (NewMapper noPkIntIndex = some (.error Error.ErrPk) →
        (∀ f ∈ noPkIntIndexFields, (f.isPk ∨ f.isIndex) → f.Kind = Kind.String) ∧
          noPkIntIndexFields.countP StructField.isPk ≠ 1)) :=
  ⟨Or.inl rfl, validation_order noPkIntIndex _ _ (Or.inl rfl)⟩

/-- C10. `Get` returns, without ever failing, what its three-case description
says, the order of the result left aside. -/
theorem Get_refines_spec (m : Mapper) (n v : String) : m.Get n v = some (Get_spec m n v) := by
  rw [Mapper.Get_closed]
  unfold Get_spec
  by_cases hn : n = m.pkName
  · simp only [hn, if_true]
    cases m.pk.m.lookup v <;> rfl
  · simp only [hn, if_false]
    by_cases hmem : n ∈ m.indexes
    · simp only [hmem, if_true]
      cases m.bucket n v with
      | none => rfl
      | some ks =>
        simp only [Option.map_some', Option.getD_some]
        rw [filterMap_lookup_eq]
    · have : m.bucket n v = none := by
        simp [Mapper.bucket, AList.lookup_eq_none.2 hmem]
      simp [hmem, this]

/-! ## Further invariants of the reachable states, call sequences, locking -/

theorem Mapper.mem_mapIndexes {m : Mapper} {g : String → index → index} {a : String} :
    a ∈ (m.mapIndexes g).indexes ↔ a ∈ m.indexes := by
  rw [AList.mem_keys, Mapper.keys_mapIndexes, ← AList.mem_keys]

theorem Reachable.findable {m : Mapper} (h : Reachable m) : m.Findable := by
  induction h with
  | new obj m h =>
    obtain ⟨-, -, hpk, -⟩ := NewMapper_ok h
    intro k r hl
    rw [hpk] at hl
    simp at hl
  | add m m' obj e hm h ih =>
    rcases Mapper.Add_cases hm.invariant.1 h with rfl | rfl
    · exact ih
    · intro k r hl
      simp only [Mapper.mapIndexes_pk, Mapper.addByPk_pk, Mapper.mapIndexes_pkName,
        Mapper.addByPk_pkName, finmap_lookup_insert_ite] at hl ⊢
      by_cases e : k = obj.attr m.pkName
      · simp only [e, if_true, Option.some.injEq] at hl
        subst hl
        refine ⟨e.symm, fun a ha => ?_⟩
        rw [Mapper.mem_mapIndexes] at ha
        rw [Mapper.bucket_add]
        have ha' : a ∈ m.indexes := ha
        exact ⟨insert (obj.attr m.pkName) ((m.bucket a (obj.attr a)).getD ∅), by simp [ha'],
          by rw [e]; exact Finset.mem_insert_self _ _⟩
      · simp only [e, if_false] at hl
        obtain ⟨h1, h2⟩ := ih k r hl
        refine ⟨h1, fun a ha => ?_⟩
        rw [Mapper.mem_mapIndexes] at ha
        obtain ⟨b, hb, hkb⟩ := h2 a ha
        rw [Mapper.bucket_add]
        by_cases e2 : r.attr a = obj.attr a
        · have ha' : a ∈ m.indexes := ha
          rw [e2] at hb
          exact ⟨insert (obj.attr m.pkName) b, by simp [ha', e2, hb],
            Finset.mem_insert_of_mem hkb⟩
        · exact ⟨b, by simp [e2, hb], hkb⟩
  | remove m m' obj e hm h ih =>
    rcases Mapper.Remove_cases hm.invariant.1 h with rfl | rfl
    · exact ih
    · intro k r hl
      simp only [Mapper.mapIndexes_pk, Mapper.removeByPk_pk, Mapper.mapIndexes_pkName,
        Mapper.removeByPk_pkName, finmap_lookup_erase_ite] at hl ⊢
      by_cases e : k = obj.attr m.pkName
      · simp [e] at hl
      · simp only [e, if_false] at hl
        obtain ⟨h1, h2⟩ := ih k r hl
        refine ⟨h1, fun a ha => ?_⟩
        rw [Mapper.mem_mapIndexes] at ha
        obtain ⟨b, hb, hkb⟩ := h2 a ha
        rw [Mapper.bucket_remove]
        by_cases e2 : r.attr a = obj.attr a
        · have hne : b.erase (obj.attr m.pkName) ≠ ∅ :=
            Finset.ne_empty_of_mem (Finset.mem_erase.2 ⟨e, hkb⟩)
          exact ⟨b.erase (obj.attr m.pkName), by rw [if_pos e2, hb]; simp [hne],
            Finset.mem_erase.2 ⟨e, hkb⟩⟩
        · exact ⟨b, by simp [e2, hb], hkb⟩

theorem bookStore1_eq : bookMapper.Add book1 = some (bookStore1, none) := by decide

theorem bookStore1_reachable : Reachable bookStore1 :=
  Reachable.add bookMapper bookStore1 book1 none bookMapper_reachable bookStore1_eq

theorem Mapper.eq_of_parts {m₁ m₂ : Mapper} (h1 : m₁.typ = m₂.typ) (h2 : m₁.eleTyp = m₂.eleTyp)
    (h3 : m₁.pkName = m₂.pkName) (h4 : m₁.pk.m = m₂.pk.m) (h5 : m₁.indexes = m₂.indexes) :
    m₁ = m₂ := by
  cases m₁ with
  | mk t₁ e₁ n₁ p₁ i₁ =>
    cases m₂ with
    | mk t₂ e₂ n₂ p₂ i₂ =>
      cases p₁
      cases p₂
      simp only at h1 h2 h3 h4 h5
      subst h1 h2 h3 h4 h5
      rfl

theorem index.add_comm (idx : index) (v₁ k₁ v₂ k₂ : String) :
    (idx.add v₁ k₁).add v₂ k₂ = (idx.add v₂ k₂).add v₁ k₁ := by
  have : ((idx.add v₁ k₁).add v₂ k₂).m = ((idx.add v₂ k₂).add v₁ k₁).m := by
    apply Finmap.ext_lookup
    intro x
    simp only [index.lookup_add]
    by_cases e : v₁ = v₂
    · subst e
      by_cases ex : x = v₁
      · simp [ex, Finset.Insert.comm]
      · simp [ex]
    · have e' : ¬ v₂ = v₁ := fun h => e h.symm
      by_cases e1 : x = v₁
      · subst e1; simp [e, e']
      · by_cases e2 : x = v₂
        · subst e2; simp [e, e']
        · simp [e1, e2]
  cases h₁ : (idx.add v₁ k₁).add v₂ k₂
  cases h₂ : (idx.add v₂ k₂).add v₁ k₁
  simp only [h₁, h₂] at this
  rw [this]

/-- C14. In every state reachable from a store `NewMapper` returned by calls of
`Add` and `Remove`, with any argument and with or without an error, no bucket
of any secondary index is empty. -/
theorem no_empty_bucket (m : Mapper) (a v : String) (b : Finset String) (hm : Reachable m)
    (hb : m.bucket a v = some b) : b ≠ ∅ :=
  hm.invariant.2 a v b hb

theorem no_empty_bucket_witness :
    Reachable bookStore1 ∧ bookStore1.bucket "Title" "Jane Eyre" = some {"1"} ∧
      ({"1"} : Finset String) ≠ ∅ :=
  ⟨bookStore1_reachable, by decide,
    no_empty_bucket bookStore1 "Title" "Jane Eyre" {"1"} bookStore1_reachable (by decide)⟩

/-- C18 (the failing input). On the nil pointer of the bound pointer type `Add`
and `Remove` panic: `Elem` gives the zero `Value`, and `FieldByName` on it
panics, where the claim has them return no error. -/
theorem Add_Remove_nil_pointer_panic :
    TypeOf (.nilptr BookType) = some bookMapper.typ ∧
      bookMapper.Add (.nilptr BookType) = none ∧ bookMapper.Remove (.nilptr BookType) = none := by
  decide

/-- C19. In every reachable state every entry `k -> r` of the primary map has
`k` equal to `r`'s primary-key value and, for every secondary index `a`, `k` in
the bucket of `r`'s `a`-value; and `Get(a, r's a-value)` contains `r`. -/
theorem stored_records_findable (m : Mapper) (k : String) (r : Value) (hm : Reachable m)
    (hl : m.pk.m.lookup k = some r) :
    r.attr m.pkName = k ∧
      (∀ a, a ∈ m.indexes → ∃ b, m.bucket a (r.attr a) = some b ∧ k ∈ b) ∧
      (∀ a, a ∈ m.indexes → ∃ res, m.Get a (r.attr a) = some res ∧ r ∈ res) := by
  obtain ⟨h1, h2⟩ := hm.findable k r hl
  refine ⟨h1, h2, fun a ha => ⟨_, Mapper.Get_closed _ _ _, ?_⟩⟩
  by_cases e : a = m.pkName
  · subst e
    rw [if_pos rfl, h1, hl]
    simp
  · obtain ⟨b, hb, hkb⟩ := h2 a ha
    simp only [e, if_false, hb, Option.map_some', Option.getD_some, Multiset.mem_filterMap]
    exact ⟨k, hkb, hl⟩

theorem stored_records_findable_witness :
    Reachable bookStore1 ∧ bookStore1.pk.m.lookup "1" = some book1 ∧
    book1.attr bookStore1.pkName = "1" ∧
      (∀ a, a ∈ bookStore1.indexes → ∃ b, bookStore1.bucket a (book1.attr a) = some b ∧ "1" ∈ b) ∧
      (∀ a, a ∈ bookStore1.indexes → ∃ res, bookStore1.Get a (book1.attr a) = some res ∧ book1 ∈ res) :=
  ⟨bookStore1_reachable, by decide,
    stored_records_findable bookStore1 "1" book1 bookStore1_reachable (by decide)⟩

/-- C20. For two records of the bound type with different primary keys, `Add`
of the one and then the other leaves the same state as `Add` in the other
order, whether or not they share secondary values. -/
theorem Add_commutes (m : Mapper) (r₁ r₂ : Value) (hb : m.Bound)
    (ht₁ : TypeOf r₁ = some m.typ) (hr₁ : r₁.record.isSome)
    (ht₂ : TypeOf r₂ = some m.typ) (hr₂ : r₂.record.isSome)
    (hk : r₁.attr m.pkName ≠ r₂.attr m.pkName) :
    ∃ m₁ m₂ m', m.Add r₁ = some (m₁, none) ∧ m₁.Add r₂ = some (m', none) ∧
      m.Add r₂ = some (m₂, none) ∧ m₂.Add r₁ = some (m', none) := by
  obtain ⟨s₁, hs₁⟩ := Option.isSome_iff_exists.1 hr₁
  obtain ⟨s₂, hs₂⟩ := Option.isSome_iff_exists.1 hr₂
  have h1 := Mapper.Add_eq hb ht₁ hs₁
  have h2 := Mapper.Add_eq hb ht₂ hs₂
  have h12 := Mapper.Add_eq (m := (m.addByPk (r₁.attr m.pkName) r₁).mapIndexes
    (fun a idx => idx.add (r₁.attr a) (r₁.attr m.pkName))) (r := r₂) hb ht₂ hs₂
  have h21 := Mapper.Add_eq (m := (m.addByPk (r₂.attr m.pkName) r₂).mapIndexes
    (fun a idx => idx.add (r₂.attr a) (r₂.attr m.pkName))) (r := r₁) hb ht₁ hs₁
  refine ⟨_, _, _, h1, h12, h2, ?_⟩
  rw [h21]
  congr 2
  apply Mapper.eq_of_parts
  · rfl
  · rfl
  · rfl
  · simp only [Mapper.mapIndexes_pk, Mapper.addByPk_pk, Mapper.mapIndexes_pkName,
      Mapper.addByPk_pkName]
    exact Finmap.insert_insert_of_ne _ (Ne.symm hk)
  · apply alist_ext_lookup
    · simp [Mapper.keys_mapIndexes]
    · intro a
      simp only [Mapper.lookup_mapIndexes, Mapper.addByPk_indexes, Mapper.mapIndexes_pkName,
        Mapper.addByPk_pkName, Option.map_map]
      cases m.indexes.lookup a with
      | none => rfl
      | some idx => simp [index.add_comm]

theorem Add_commutes_witness :
    bookMapper.Bound ∧ TypeOf book1 = some bookMapper.typ ∧ book1.record.isSome ∧
    TypeOf book2 = some bookMapper.typ ∧ book2.record.isSome ∧
    book1.attr bookMapper.pkName ≠ book2.attr bookMapper.pkName ∧
    ∃ m₁ m₂ m', bookMapper.Add book1 = some (m₁, none) ∧ m₁.Add book2 = some (m', none) ∧
      bookMapper.Add book2 = some (m₂, none) ∧ m₂.Add book1 = some (m', none) :=
  ⟨⟨rfl, Or.inr rfl⟩, rfl, rfl, rfl, rfl, by decide,
    Add_commutes bookMapper book1 book2 ⟨rfl, Or.inr rfl⟩ rfl rfl rfl rfl (by decide)⟩

theorem Mapper.mem_bucket_add (m : Mapper) (k : String) (obj : Value) (f : String → String)
    (a : String) (ha : a ∈ m.indexes) :
    ∃ b, ((m.addByPk k obj).mapIndexes fun a idx => idx.add (f a) k).bucket a (f a) = some b ∧
      k ∈ b :=
  ⟨insert k ((m.bucket a (f a)).getD ∅), by rw [Mapper.bucket_add, if_pos ⟨ha, rfl⟩],
    Finset.mem_insert_self _ _⟩

/-- C12. For a reachable state, a secondary index `a` and two records of the
bound type with the same primary key `k` and different `a`-values, after
`Add(r1)` then `Add(r2)`: `k` is in the bucket of the old value and in the
bucket of the new one, `Get` on the primary attribute and `k` is `[r2]`, and
`Get(a, old)` contains `r2` and does not contain `r1`. -/
theorem stale_index_on_overwrite (m : Mapper) (a : String) (r₁ r₂ : Value) (hm : Reachable m)
    (ha : a ∈ m.indexes)
    (ht₁ : TypeOf r₁ = some m.typ) (hr₁ : r₁.record.isSome)
    (ht₂ : TypeOf r₂ = some m.typ) (hr₂ : r₂.record.isSome)
    (hk : r₁.attr m.pkName = r₂.attr m.pkName) (hv : r₁.attr a ≠ r₂.attr a) :
    ∃ m₁ m₂, m.Add r₁ = some (m₁, none) ∧ m₁.Add r₂ = some (m₂, none) ∧
      (∃ b, m₂.bucket a (r₁.attr a) = some b ∧ r₁.attr m.pkName ∈ b) ∧
      (∃ b, m₂.bucket a (r₂.attr a) = some b ∧ r₁.attr m.pkName ∈ b) ∧
      m₂.Get m.pkName (r₁.attr m.pkName) = some {r₂} ∧
      ∃ res, m₂.Get a (r₁.attr a) = some res ∧ r₂ ∈ res ∧ r₁ ∉ res := by
  have hb := hm.invariant.1
  obtain ⟨s₁, hs₁⟩ := Option.isSome_iff_exists.1 hr₁
  obtain ⟨s₂, hs₂⟩ := Option.isSome_iff_exists.1 hr₂
  have h1 := Mapper.Add_eq hb ht₁ hs₁
  have h12 := Mapper.Add_eq (m := (m.addByPk (r₁.attr m.pkName) r₁).mapIndexes
    (fun a idx => idx.add (r₁.attr a) (r₁.attr m.pkName))) (r := r₂) hb ht₂ hs₂
  have hane : a ≠ m.pkName := by
    intro e
    apply hv
    rw [e, hk]
  have ha₁ : a ∈ ((m.addByPk (r₁.attr m.pkName) r₁).mapIndexes
      (fun a idx => idx.add (r₁.attr a) (r₁.attr m.pkName))).indexes :=
    Mapper.mem_mapIndexes.2 ha
  have hb1 : ∀ v, ((m.addByPk (r₁.attr m.pkName) r₁).mapIndexes
      (fun a idx => idx.add (r₁.attr a) (r₁.attr m.pkName))).bucket a v =
        if v = r₁.attr a then some (insert (r₁.attr m.pkName) ((m.bucket a v).getD ∅))
        else m.bucket a v := by
    intro v
    rw [Mapper.bucket_add]
    simp [ha]
  have hold : (((m.addByPk (r₁.attr m.pkName) r₁).mapIndexes
      (fun a idx => idx.add (r₁.attr a) (r₁.attr m.pkName))).addByPk (r₂.attr m.pkName) r₂
        |>.mapIndexes (fun a idx => idx.add (r₂.attr a) (r₂.attr m.pkName))).bucket a (r₁.attr a) =
      some (insert (r₁.attr m.pkName) ((m.bucket a (r₁.attr a)).getD ∅)) := by
    rw [Mapper.bucket_add, if_neg (fun h => hv h.2), hb1, if_pos rfl]
  have hnew := Mapper.mem_bucket_add ((m.addByPk (r₁.attr m.pkName) r₁).mapIndexes
    (fun a idx => idx.add (r₁.attr a) (r₁.attr m.pkName))) (r₂.attr m.pkName) r₂
    (fun a => r₂.attr a) a ha₁
  obtain ⟨bn, hbn, hkbn⟩ := hnew
  refine ⟨_, _, h1, h12, ⟨_, hold, Finset.mem_insert_self _ _⟩, ?_, ?_,
    ⟨_, Mapper.Get_closed _ _ _, ?_, ?_⟩⟩
  · exact ⟨bn, hbn, by rw [hk]; exact hkbn⟩
  · rw [Mapper.Get_closed, hk]
    simp
  · simp only [Mapper.mapIndexes_pkName, Mapper.addByPk_pkName, hane, if_false, hold,
      Option.map_some', Option.getD_some, Multiset.mem_filterMap, Mapper.mapIndexes_pk,
      Mapper.addByPk_pk]
    exact ⟨r₁.attr m.pkName, Finset.mem_insert_self _ _, by rw [hk]; simp⟩
  · simp only [Mapper.mapIndexes_pkName, Mapper.addByPk_pkName, hane, if_false, hold,
      Option.map_some', Option.getD_some, Multiset.mem_filterMap, Mapper.mapIndexes_pk,
      Mapper.addByPk_pk, finmap_lookup_insert_ite]
    rintro ⟨k', -, hk'⟩
    by_cases e : k' = r₂.attr m.pkName
    · simp only [e, if_true, Option.some.injEq] at hk'
      exact hv (by rw [hk'])
    · have e' : ¬ k' = r₁.attr m.pkName := by rw [hk]; exact e
      simp only [e, e', if_false] at hk'
      exact e' (hm.findable k' r₁ hk').1.symm

theorem stale_index_on_overwrite_witness :
    Reachable bookMapper ∧ "Title" ∈ bookMapper.indexes ∧
    TypeOf book1 = some bookMapper.typ ∧ book1.record.isSome ∧
    TypeOf book1b = some bookMapper.typ ∧ book1b.record.isSome ∧
    book1.attr bookMapper.pkName = book1b.attr bookMapper.pkName ∧
    book1.attr "Title" ≠ book1b.attr "Title" ∧
    ∃ m₁ m₂, bookMapper.Add book1 = some (m₁, none) ∧ m₁.Add book1b = some (m₂, none) ∧
      (∃ b, m₂.bucket "Title" (book1.attr "Title") = some b ∧ book1.attr bookMapper.pkName ∈ b) ∧
      (∃ b, m₂.bucket "Title" (book1b.attr "Title") = some b ∧ book1.attr bookMapper.pkName ∈ b) ∧
      m₂.Get bookMapper.pkName (book1.attr bookMapper.pkName) = some {book1b} ∧
      ∃ res, m₂.Get "Title" (book1.attr "Title") = some res ∧ book1b ∈ res ∧ book1 ∉ res :=
  ⟨bookMapper_reachable, by decide, rfl, rfl, rfl, rfl, by decide, by decide,
    stale_index_on_overwrite bookMapper "Title" book1 book1b bookMapper_reachable (by decide)
      rfl rfl rfl rfl (by decide) (by decide)⟩

/-- C13. For a secondary index `a` and two records of the bound type with the
same primary key `k` and different `a`-values, after `Add(r)` then
`Remove(r')`: `k` is no key of the primary map, `k` is still in the bucket of
`r`'s `a`-value, and every element of `Get(a, r's a-value)` is stored under a
key other than `k`. -/
theorem Remove_uses_passed_record (m : Mapper) (a : String) (r r' : Value) (hb : m.Bound)
    (ha : a ∈ m.indexes)
    (ht : TypeOf r = some m.typ) (hr : r.record.isSome)
    (ht' : TypeOf r' = some m.typ) (hr' : r'.record.isSome)
    (hk : r.attr m.pkName = r'.attr m.pkName) (hv : r.attr a ≠ r'.attr a) :
    ∃ m₁ m₂, m.Add r = some (m₁, none) ∧ m₁.Remove r' = some (m₂, none) ∧
      r.attr m.pkName ∉ m₂.pk.m ∧
      (∃ b, m₂.bucket a (r.attr a) = some b ∧ r.attr m.pkName ∈ b) ∧
      ∃ res, m₂.Get a (r.attr a) = some res ∧
        ∀ o ∈ res, ∃ k', k' ≠ r.attr m.pkName ∧ m₂.pk.m.lookup k' = some o := by
  obtain ⟨s, hs⟩ := Option.isSome_iff_exists.1 hr
  obtain ⟨s', hs'⟩ := Option.isSome_iff_exists.1 hr'
  have h1 := Mapper.Add_eq hb ht hs
  have h2 := Mapper.Remove_eq (m := (m.addByPk (r.attr m.pkName) r).mapIndexes
    (fun a idx => idx.add (r.attr a) (r.attr m.pkName))) (r := r') hb ht' hs'
  have hnone : ((m.pk.m.insert (r.attr m.pkName) r).erase (r'.attr m.pkName)).lookup
      (r.attr m.pkName) = none := by
    rw [hk]; simp
  refine ⟨_, _, h1, h2, ?_, ⟨insert (r.attr m.pkName) ((m.bucket a (r.attr a)).getD ∅), ?_,
    Finset.mem_insert_self _ _⟩, ⟨_, Mapper.Get_closed _ _ _, fun o ho => ?_⟩⟩
  · exact Finmap.lookup_eq_none.1 hnone
  · rw [Mapper.bucket_remove, if_neg hv, Mapper.bucket_add, if_pos ⟨ha, rfl⟩]
  · have hane : a ≠ m.pkName := by
      intro e
      apply hv
      rw [e, hk]
    simp only [Mapper.mapIndexes_pkName, Mapper.removeByPk_pkName, Mapper.addByPk_pkName, hane,
      if_false, Mapper.mapIndexes_pk, Mapper.removeByPk_pk, Mapper.addByPk_pk] at ho ⊢
    cases hbk : Mapper.bucket _ a (r.attr a) with
    | none => rw [hbk] at ho; simp at ho
    | some pks =>
      rw [hbk] at ho
      simp only [Option.map_some', Option.getD_some, Multiset.mem_filterMap] at ho
      obtain ⟨k', -, hk'⟩ := ho
      refine ⟨k', fun h => ?_, hk'⟩
      rw [h, hnone] at hk'
      cases hk'

theorem Remove_uses_passed_record_witness :
    bookMapper.Bound ∧ "Title" ∈ bookMapper.indexes ∧
    TypeOf book1 = some bookMapper.typ ∧ book1.record.isSome ∧
    TypeOf book1b = some bookMapper.typ ∧ book1b.record.isSome ∧
    book1.attr bookMapper.pkName = book1b.attr bookMapper.pkName ∧
    book1.attr "Title" ≠ book1b.attr "Title" ∧
    ∃ m₁ m₂, bookMapper.Add book1 = some (m₁, none) ∧ m₁.Remove book1b = some (m₂, none) ∧
      book1.attr bookMapper.pkName ∉ m₂.pk.m ∧
      (∃ b, m₂.bucket "Title" (book1.attr "Title") = some b ∧ book1.attr bookMapper.pkName ∈ b) ∧
      ∃ res, m₂.Get "Title" (book1.attr "Title") = some res ∧
        ∀ o ∈ res, ∃ k', k' ≠ book1.attr bookMapper.pkName ∧ m₂.pk.m.lookup k' = some o :=
  ⟨⟨rfl, Or.inr rfl⟩, by decide, rfl, rfl, rfl, rfl, by decide, by decide,
    Remove_uses_passed_record bookMapper "Title" book1 book1b ⟨rfl, Or.inr rfl⟩ (by decide)
      rfl rfl rfl rfl (by decide) (by decide)⟩

theorem Mapper.Get_mem_stored {m : Mapper} {n v : String} {res : Multiset Value} {o : Value}
    (h : m.Get n v = some res) (ho : o ∈ res) : ∃ k, m.pk.m.lookup k = some o := by
  rw [Mapper.Get_closed, Option.some.injEq] at h
  subst h
  by_cases e : n = m.pkName
  · simp only [e, if_true] at ho
    cases hl : m.pk.m.lookup v with
    | none => rw [hl] at ho; simp at ho
    | some r =>
      rw [hl] at ho
      simp only [Option.map_some', Option.getD_some, Multiset.mem_singleton] at ho
      exact ⟨v, by rw [hl, ho]⟩
  · simp only [e, if_false] at ho
    cases hb : m.bucket n v with
    | none => rw [hb] at ho; simp at ho
    | some b =>
      rw [hb] at ho
      simp only [Option.map_some', Option.getD_some, Multiset.mem_filterMap] at ho
      obtain ⟨k, -, hk⟩ := ho
      exact ⟨k, hk⟩

theorem Mapper.Get_nodup {m : Mapper} (hkey : ∀ k o, m.pk.m.lookup k = some o → o.attr m.pkName = k)
    {n v : String} {res : Multiset Value} (h : m.Get n v = some res) : res.Nodup := by
  rw [Mapper.Get_closed, Option.some.injEq] at h
  subst h
  by_cases e : n = m.pkName
  · simp only [e, if_true]
    cases m.pk.m.lookup v with
    | none => simp
    | some r => simp
  · simp only [e, if_false]
    cases m.bucket n v with
    | none => simp
    | some b =>
      simp only [Option.map_some', Option.getD_some]
      refine Multiset.Nodup.filterMap _ (fun k k' o hk hk' => ?_) b.nodup
      rw [← hkey k o hk, ← hkey k' o hk']

theorem Reachable.mem_Get {m : Mapper} (hm : Reachable m) {k : String} {r : Value}
    (hl : m.pk.m.lookup k = some r) {a : String} (ha : a ∈ m.indexes) {res : Multiset Value}
    (h : m.Get a (r.attr a) = some res) : r ∈ res := by
  obtain ⟨h1, h2⟩ := hm.findable k r hl
  rw [Mapper.Get_closed, Option.some.injEq] at h
  subst h
  by_cases e : a = m.pkName
  · subst e
    rw [if_pos rfl, h1, hl]
    simp
  · obtain ⟨b, hb, hkb⟩ := h2 a ha
    simp only [e, if_false, hb, Option.map_some', Option.getD_some, Multiset.mem_filterMap]
    exact ⟨k, hkb, hl⟩

/-- Adding a list of records of the bound type with pairwise distinct primary
keys: every call returns no error, every record of the list ends up stored
under its key, and the other keys keep what they had. -/
theorem Mapper.calls_add :
    ∀ (rs : List Value) (m : Mapper), Reachable m →
      (∀ r ∈ rs, TypeOf r = some m.typ ∧ r.record.isSome) →
      (rs.map fun r => r.attr m.pkName).Nodup →
      ∃ m', m.calls (rs.map Call.Add) = some (m', rs.map fun _ => none) ∧ Reachable m' ∧
        m'.pkName = m.pkName ∧ m'.indexes.keys = m.indexes.keys ∧
        (∀ r ∈ rs, m'.pk.m.lookup (r.attr m.pkName) = some r) ∧
        (∀ k, (∀ r ∈ rs, r.attr m.pkName ≠ k) → m'.pk.m.lookup k = m.pk.m.lookup k)
  | [], m, hm, _, _ => ⟨m, rfl, hm, rfl, rfl, by simp, fun _ _ => rfl⟩
  | r :: rs, m, hm, hty, hnd => by
    obtain ⟨ht, hr⟩ := hty r (List.mem_cons_self _ _)
    obtain ⟨s, hs⟩ := Option.isSome_iff_exists.1 hr
    have hadd := Mapper.Add_eq hm.invariant.1 ht hs
    rw [List.map_cons, List.nodup_cons] at hnd
    have hm₁ := Reachable.add m _ r none hm hadd
    obtain ⟨m', h1, h2, h3, h4, h5, h6⟩ := Mapper.calls_add rs _ hm₁
      (fun r' hr' => hty r' (List.mem_cons_of_mem _ hr')) hnd.2
    refine ⟨m', ?_, h2, h3, ?_, ?_, ?_⟩
    · simp only [List.map_cons, Mapper.calls, Mapper.call, hadd, Option.some_bind, h1,
        Option.map_some']
    · rw [h4, Mapper.keys_mapIndexes]
      rfl
    · intro r' hr'
      rcases List.mem_cons.1 hr' with rfl | hr'
      · have := h6 (r'.attr m.pkName) fun x hx e => hnd.1 (List.mem_map.2 ⟨x, hx, e⟩)
        rw [this]
        simp
      · exact h5 r' hr'
    · intro k hk
      have := h6 k fun x hx => hk x (List.mem_cons_of_mem _ hx)
      rw [this]
      have hne : k ≠ r.attr m.pkName := fun e => hk r (List.mem_cons_self _ _) e.symm
      simp [finmap_lookup_insert_ite, hne]

/-- C11. For a reachable state, a secondary index `a`, a value `v` and a list
of records of the bound type with pairwise distinct primary keys that all have
`a`-value `v`: the `Add` calls return no error, and afterwards `Get(a, v)`
contains each record of the list exactly once; on the store `NewMapper` has just
returned, `Get(a, v)` is the list itself, its order left aside. -/
theorem shared_secondary_value (m : Mapper) (a v : String) (rs : List Value) (hm : Reachable m)
    (ha : a ∈ m.indexes)
    (hty : ∀ r ∈ rs, TypeOf r = some m.typ ∧ r.record.isSome)
    (hv : ∀ r ∈ rs, r.attr a = v)
    (hnd : (rs.map fun r => r.attr m.pkName).Nodup) :
    ∃ m' res, m.calls (rs.map Call.Add) = some (m', rs.map fun _ => none) ∧
      m'.Get a v = some res ∧
      (∀ r ∈ rs, res.count r = 1) ∧
      ((∃ obj, NewMapper obj = some (.ok m)) → res = (rs : Multiset Value)) := by
  obtain ⟨m', h1, h2, h3, h4, h5, h6⟩ := Mapper.calls_add rs m hm hty hnd
  have hkey : ∀ k o, m'.pk.m.lookup k = some o → o.attr m'.pkName = k :=
    fun k o h => (h2.findable k o h).1
  have ha' : a ∈ m'.indexes := by
    rw [AList.mem_keys, h4]
    exact AList.mem_keys.1 ha
  have hmem : ∀ r ∈ rs, r ∈ (if a = m'.pkName then
        ((m'.pk.m.lookup v).map fun obj => ({obj} : Multiset Value)).getD 0
      else ((m'.bucket a v).map fun pks => pks.val.filterMap fun k => m'.pk.m.lookup k).getD 0) := by
    intro r hr
    have := Reachable.mem_Get h2 (h5 r hr) ha' (Mapper.Get_closed m' a (r.attr a))
    rwa [hv r hr] at this
  refine ⟨m', _, h1, Mapper.Get_closed _ _ _, fun r hr => ?_, ?_⟩
  · exact Multiset.count_eq_one_of_mem (Mapper.Get_nodup hkey (Mapper.Get_closed m' a v))
      (hmem r hr)
  · rintro ⟨obj, hobj⟩
    obtain ⟨-, -, hempty, -⟩ := NewMapper_ok hobj
    refine (Multiset.Nodup.ext (Mapper.Get_nodup hkey (Mapper.Get_closed m' a v))
      (Multiset.coe_nodup.2 (List.Nodup.of_map _ hnd))).2 fun o => ⟨fun ho => ?_, fun ho => ?_⟩
    · obtain ⟨k, hk⟩ := Mapper.Get_mem_stored (Mapper.Get_closed m' a v) ho
      by_cases hex : ∃ r ∈ rs, r.attr m.pkName = k
      · obtain ⟨r, hr, rfl⟩ := hex
        rw [h5 r hr, Option.some.injEq] at hk
        rw [← hk]
        exact Multiset.mem_coe.2 hr
      · have := h6 k fun r hr e => hex ⟨r, hr, e⟩
        rw [this, hempty] at hk
        simp at hk
    · exact hmem o (Multiset.mem_coe.1 ho)

theorem shared_secondary_value_witness :
    Reachable bookMapper ∧ "Title" ∈ bookMapper.indexes ∧
    (∀ r ∈ [book1, book5], TypeOf r = some bookMapper.typ ∧ r.record.isSome) ∧
    (∀ r ∈ [book1, book5], r.attr "Title" = "Jane Eyre") ∧
    ([book1, book5].map fun r => r.attr bookMapper.pkName).Nodup ∧
    ∃ m' res, bookMapper.calls ([book1, book5].map Call.Add) =
        some (m', [book1, book5].map fun _ => none) ∧
      m'.Get "Title" "Jane Eyre" = some res ∧
      (∀ r ∈ [book1, book5], res.count r = 1) ∧
      ((∃ obj, NewMapper obj = some (.ok bookMapper)) → res = ([book1, book5] : Multiset Value)) :=
  ⟨bookMapper_reachable, by decide, by decide, by decide, by decide,
    shared_secondary_value bookMapper "Title" "Jane Eyre" [book1, book5] bookMapper_reachable
      (by decide) (by decide) (by decide) (by decide)⟩

theorem Mapper.getD_bucket_remove (m : Mapper) (k : String) (f : String → String) (a v : String) :
    (((m.removeByPk k).mapIndexes fun a idx => idx.remove (f a) k).bucket a v).getD ∅ =
      if v = f a then ((m.bucket a v).getD ∅).erase k else (m.bucket a v).getD ∅ := by
  rw [Mapper.bucket_remove]
  by_cases e : v = f a
  · simp only [e, if_true]
    cases m.bucket a (f a) with
    | none => simp
    | some pks =>
      by_cases he : pks.erase k = ∅
      · simp [he]
      · simp [he]
  · simp [e]

theorem Mapper.getD_bucket_add (m : Mapper) (k : String) (obj : Value) (f : String → String)
    (a v : String) (ha : a ∈ m.indexes) :
    (((m.addByPk k obj).mapIndexes fun a idx => idx.add (f a) k).bucket a v).getD ∅ =
      if v = f a then insert k ((m.bucket a v).getD ∅) else (m.bucket a v).getD ∅ := by
  rw [Mapper.bucket_add]
  by_cases e : v = f a
  · simp [e, ha]
  · simp [e]

theorem Mapper.Consistent.add {m : Mapper} (hc : m.Consistent) (r : Value)
    (hk : r.attr m.pkName ∉ m.pk.m) :
    ((m.addByPk (r.attr m.pkName) r).mapIndexes
      fun a idx => idx.add (r.attr a) (r.attr m.pkName)).Consistent := by
  have hnone : m.pk.m.lookup (r.attr m.pkName) = none := Finmap.lookup_eq_none.2 hk
  refine ⟨fun k o hl => ?_, fun a ha v k => ?_⟩
  · simp only [Mapper.mapIndexes_pk, Mapper.addByPk_pk, Mapper.mapIndexes_pkName,
      Mapper.addByPk_pkName, finmap_lookup_insert_ite] at hl ⊢
    by_cases e : k = r.attr m.pkName
    · simp only [e, if_true, Option.some.injEq] at hl
      rw [← hl, e]
    · simp only [e, if_false] at hl
      exact hc.1 k o hl
  · have ha' : a ∈ m.indexes := Mapper.mem_mapIndexes.1 ha
    rw [Mapper.getD_bucket_add _ _ _ _ _ _ ha']
    simp only [Mapper.mapIndexes_pk, Mapper.addByPk_pk, finmap_lookup_insert_ite]
    by_cases ek : k = r.attr m.pkName
    · subst ek
      by_cases ev : v = r.attr a
      · simp [ev]
      · simp only [ev, if_false, if_true, Option.some.injEq, exists_eq_left']
        rw [hc.2 a ha' v, hnone]
        simp [Ne.symm ev]
    · by_cases ev : v = r.attr a
      · simp only [ev, if_true, ek, if_false, Finset.mem_insert, false_or]
        exact hc.2 a ha' _ k
      · simp only [ev, ek, if_false]
        exact hc.2 a ha' v k

theorem Mapper.Consistent.remove {m : Mapper} (hc : m.Consistent) (r : Value)
    (hd : ∀ r₀, m.pk.m.lookup (r.attr m.pkName) = some r₀ →
      ∀ a, a ∈ m.indexes → r₀.attr a = r.attr a) :
    ((m.removeByPk (r.attr m.pkName)).mapIndexes
      fun a idx => idx.remove (r.attr a) (r.attr m.pkName)).Consistent := by
  refine ⟨fun k o hl => ?_, fun a ha v k => ?_⟩
  · simp only [Mapper.mapIndexes_pk, Mapper.removeByPk_pk, Mapper.mapIndexes_pkName,
      Mapper.removeByPk_pkName, finmap_lookup_erase_ite] at hl ⊢
    by_cases e : k = r.attr m.pkName
    · simp [e] at hl
    · simp only [e, if_false] at hl
      exact hc.1 k o hl
  · have ha' : a ∈ m.indexes := Mapper.mem_mapIndexes.1 ha
    rw [Mapper.getD_bucket_remove]
    simp only [Mapper.mapIndexes_pk, Mapper.removeByPk_pk, finmap_lookup_erase_ite]
    by_cases ek : k = r.attr m.pkName
    · subst ek
      by_cases ev : v = r.attr a
      · simp [ev]
      · simp only [ev, if_false, if_true]
        rw [hc.2 a ha' v]
        constructor
        · rintro ⟨o, ho, hov⟩
          exact absurd (by rw [← hov, hd o ho a ha']) ev
        · rintro ⟨o, ho, -⟩
          cases ho
    · by_cases ev : v = r.attr a
      · simp only [ev, if_true, ek, if_false, Finset.mem_erase, ne_eq, not_false_eq_true, true_and]
        exact hc.2 a ha' _ k
      · simp only [ev, ek, if_false]
        exact hc.2 a ha' v k

theorem Disciplined.reachable {m : Mapper} (h : Disciplined m) : Reachable m := by
  induction h with
  | new obj m h => exact Reachable.new obj m h
  | add m m' r _ _ _ _ h ih => exact Reachable.add m m' r none ih h
  | remove m m' r r₀ _ _ _ _ _ h ih => exact Reachable.remove m m' r none ih h

theorem Disciplined.consistent {m : Mapper} (h : Disciplined m) : m.Consistent := by
  induction h with
  | new obj m h =>
    obtain ⟨-, -, hpk, hidx⟩ := NewMapper_ok h
    refine ⟨fun k o hl => ?_, fun a _ v k => ?_⟩
    · rw [hpk] at hl; simp at hl
    · have : m.bucket a v = none := by
        unfold Mapper.bucket
        cases hl : m.indexes.lookup a with
        | none => rfl
        | some idx => simp [hidx a idx hl]
      simp [this, hpk]
  | add m m' r hm ht hr hk h ih =>
    obtain ⟨s, hs⟩ := Option.isSome_iff_exists.1 hr
    rw [Mapper.Add_eq hm.reachable.invariant.1 ht hs] at h
    simp only [Option.some.injEq, Prod.mk.injEq, and_true] at h
    rw [← h]
    exact ih.add r hk
  | remove m m' r r₀ hm ht hr hl hd h ih =>
    obtain ⟨s, hs⟩ := Option.isSome_iff_exists.1 hr
    rw [Mapper.Remove_eq hm.reachable.invariant.1 ht hs] at h
    simp only [Option.some.injEq, Prod.mk.injEq, and_true] at h
    rw [← h]
    refine ih.remove r fun o ho => ?_
    rw [hl, Option.some.injEq] at ho
    rw [← ho]
    exact hd

/-- C16. In every state reached under the replace discipline, for every
secondary index `a` and value `v`: the bucket `a/v` exists exactly when some
stored record has `a`-value `v`, its members are exactly the primary keys of
the stored records whose `a`-value is `v`, and `Get(a, v)` returns exactly the
stored records whose `a`-value is `v`, each once. -/
theorem index_consistency (m : Mapper) (a v : String) (hm : Disciplined m) (ha : a ∈ m.indexes) :
    ((m.bucket a v).isSome ↔ ∃ k o, m.pk.m.lookup k = some o ∧ o.attr a = v) ∧
      (∀ b, m.bucket a v = some b →
        ∀ k, k ∈ b ↔ ∃ o, m.pk.m.lookup k = some o ∧ o.attr a = v) ∧
      ∃ res, m.Get a v = some res ∧ res.Nodup ∧
        ∀ o, o ∈ res ↔ (∃ k, m.pk.m.lookup k = some o) ∧ o.attr a = v := by
  obtain ⟨hkey, hbk⟩ := hm.consistent
  have hne := hm.reachable.invariant.2
  refine ⟨?_, fun b hb k => ?_, ⟨_, Mapper.Get_closed _ _ _,
    Mapper.Get_nodup hkey (Mapper.Get_closed m a v), fun o => ?_⟩⟩
  · constructor
    · intro h
      obtain ⟨b, hb⟩ := Option.isSome_iff_exists.1 h
      obtain ⟨k, hk⟩ := Finset.nonempty_iff_ne_empty.2 (hne a v b hb)
      obtain ⟨o, ho⟩ := (hbk a ha v k).1 (by rw [hb]; exact hk)
      exact ⟨k, o, ho⟩
    · rintro ⟨k, o, ho⟩
      have := (hbk a ha v k).2 ⟨o, ho⟩
      cases hb : m.bucket a v with
      | none => rw [hb] at this; simp at this
      | some b => rfl
  · have := hbk a ha v k
    rwa [hb] at this
  · by_cases e : a = m.pkName
    · subst e
      simp only [if_true]
      constructor
      · intro ho
        cases hl : m.pk.m.lookup v with
        | none => rw [hl] at ho; simp at ho
        | some r =>
          rw [hl] at ho
          simp only [Option.map_some', Option.getD_some, Multiset.mem_singleton] at ho
          subst ho
          exact ⟨⟨v, hl⟩, hkey v o hl⟩
      · rintro ⟨⟨k, hk⟩, hov⟩
        have : k = v := by rw [← hkey k o hk, hov]
        subst this
        simp [hk]
    · simp only [e, if_false]
      constructor
      · intro ho
        cases hb : m.bucket a v with
        | none => rw [hb] at ho; simp at ho
        | some b =>
          rw [hb] at ho
          simp only [Option.map_some', Option.getD_some, Multiset.mem_filterMap] at ho
          obtain ⟨k, hkb, hk⟩ := ho
          obtain ⟨o', ho', hov⟩ := (hbk a ha v k).1 (by rw [hb]; exact hkb)
          rw [hk, Option.some.injEq] at ho'
          subst ho'
          exact ⟨⟨k, hk⟩, hov⟩
      · rintro ⟨⟨k, hk⟩, hov⟩
        have hmem := (hbk a ha v k).2 ⟨o, hk, hov⟩
        cases hb : m.bucket a v with
        | none => rw [hb] at hmem; simp at hmem
        | some b =>
          rw [hb] at hmem
          simp only [Option.map_some', Option.getD_some, Multiset.mem_filterMap]
          exact ⟨k, hmem, hk⟩

theorem bookStore1_disciplined : Disciplined bookStore1 :=
  Disciplined.add bookMapper bookStore1 book1 (Disciplined.new _ _ test_NewMapper) rfl rfl
    (by decide) bookStore1_eq

theorem index_consistency_witness :
    Disciplined bookStore1 ∧ "Title" ∈ bookStore1.indexes ∧
    ((bookStore1.bucket "Title" "Jane Eyre").isSome ↔
        ∃ k o, bookStore1.pk.m.lookup k = some o ∧ o.attr "Title" = "Jane Eyre") ∧
      (∀ b, bookStore1.bucket "Title" "Jane Eyre" = some b →
        ∀ k, k ∈ b ↔ ∃ o, bookStore1.pk.m.lookup k = some o ∧ o.attr "Title" = "Jane Eyre") ∧
      ∃ res, bookStore1.Get "Title" "Jane Eyre" = some res ∧ res.Nodup ∧
        ∀ o, o ∈ res ↔ (∃ k, bookStore1.pk.m.lookup k = some o) ∧ o.attr "Title" = "Jane Eyre" :=
  ⟨bookStore1_disciplined, by decide,
    index_consistency bookStore1 "Title" "Jane Eyre" bookStore1_disciplined (by decide)⟩

theorem mem_removed {cs : List Call} {r : Value} (h : Call.Remove r ∈ cs) : r ∈ removed cs := by
  induction cs with
  | nil => simp at h
  | cons c cs ih =>
    cases c with
    | Add o =>
      rcases List.mem_cons.1 h with h | h
      · cases h
      · exact ih h
    | Remove o =>
      rcases List.mem_cons.1 h with h | h
      · cases h
        exact List.mem_cons_self _ _
      · exact List.mem_cons_of_mem _ (ih h)

theorem Mapper.Add_step {m : Mapper} {r : Value} (hb : m.Bound) (ht : TypeOf r = some m.typ)
    (hr : r.record.isSome) :
    ∃ m₁, m.Add r = some (m₁, none) ∧ m₁.typ = m.typ ∧ m₁.pkName = m.pkName ∧
      ∀ k, m₁.pk.m.lookup k = if k = r.attr m.pkName then some r else m.pk.m.lookup k := by
  obtain ⟨s, hs⟩ := Option.isSome_iff_exists.1 hr
  exact ⟨_, Mapper.Add_eq hb ht hs, rfl, rfl, fun k => by simp [finmap_lookup_insert_ite]⟩

theorem Mapper.Remove_step {m : Mapper} {r : Value} (hb : m.Bound) (ht : TypeOf r = some m.typ)
    (hr : r.record.isSome) :
    ∃ m₁, m.Remove r = some (m₁, none) ∧ m₁.typ = m.typ ∧ m₁.pkName = m.pkName ∧
      ∀ k, m₁.pk.m.lookup k = if k = r.attr m.pkName then none else m.pk.m.lookup k := by
  obtain ⟨s, hs⟩ := Option.isSome_iff_exists.1 hr
  exact ⟨_, Mapper.Remove_eq hb ht hs, rfl, rfl, fun k => by simp [finmap_lookup_erase_ite]⟩

/-- A call sequence that adds and removes along a list `L` of live records:
from a consistent reachable state whose stored records are those of `L`, when
the live and the added records have pairwise distinct primary keys, the removed
records are the live and the added ones, each once, and every `Remove` comes
when its record is live or already added, every call returns no error and the
primary map ends empty. -/
theorem Mapper.calls_tracked (t : GoType) (pn : String) :
    ∀ (cs : List Call) (L : List Value) (m : Mapper), m.typ = t → m.pkName = pn →
      Disciplined m →
      (∀ k o, m.pk.m.lookup k = some o ↔ o ∈ L ∧ o.attr pn = k) →
      (∀ c ∈ cs, TypeOf c.obj = some t ∧ c.obj.record.isSome) →
      ((L ++ added cs).map fun r => r.attr pn).Nodup →
      (removed cs).Perm (L ++ added cs) →
      (∀ pre r post, cs = pre ++ Call.Remove r :: post → r ∈ L ∨ Call.Add r ∈ pre) →
      ∃ m', m.calls cs = some (m', cs.map fun _ => none) ∧ Disciplined m' ∧
        ∀ k, m'.pk.m.lookup k = none
  | [], L, m, _, _, hm, htr, _, _, hperm, _ => by
    have hL : L = [] := by
      simpa [removed, added] using hperm.symm
    subst hL
    refine ⟨m, rfl, hm, fun k => ?_⟩
    cases hl : m.pk.m.lookup k with
    | none => rfl
    | some o => simpa using (htr k o).1 hl
  | .Add r :: cs, L, m, hty, hpn, hm, htr, hrec, hnd, hperm, hord => by
    subst hty hpn
    have htr' : TypeOf r = some m.typ ∧ r.record.isSome := hrec (.Add r) (List.mem_cons_self _ _)
    obtain ⟨ht, hr⟩ := htr'
    obtain ⟨m₁, hadd, ht₁, hpn₁, hpk₁⟩ := Mapper.Add_step hm.reachable.invariant.1 ht hr
    have hfresh : ∀ o ∈ L, o.attr m.pkName ≠ r.attr m.pkName := by
      intro o ho e
      simp only [added, List.map_append, List.map_cons] at hnd
      exact (List.nodup_append.1 hnd).2.2 (List.mem_map.2 ⟨o, ho, e⟩) (List.mem_cons_self _ _)
    have hk : r.attr m.pkName ∉ m.pk.m := by
      rw [← Finmap.lookup_eq_none]
      cases hl : m.pk.m.lookup (r.attr m.pkName) with
      | none => rfl
      | some o =>
        obtain ⟨ho, he⟩ := (htr _ o).1 hl
        exact absurd he (hfresh o ho)
    have hm₁ := Disciplined.add m m₁ r hm ht hr hk hadd
    obtain ⟨m', h1, h2, h3⟩ := Mapper.calls_tracked m.typ m.pkName cs (r :: L) m₁ ht₁ hpn₁ hm₁
      (fun k o => by
        rw [hpk₁ k]
        simp only [List.mem_cons]
        by_cases e : k = r.attr m.pkName
        · simp only [e, if_true, Option.some.injEq]
          constructor
          · rintro rfl; exact ⟨Or.inl rfl, rfl⟩
          · rintro ⟨rfl | ho, he⟩
            · rfl
            · exact absurd he (hfresh o ho)
        · simp only [e, if_false]
          rw [htr k o]
          constructor
          · rintro ⟨ho, he⟩; exact ⟨Or.inr ho, he⟩
          · rintro ⟨rfl | ho, he⟩
            · exact absurd he.symm e
            · exact ⟨ho, he⟩)
      (fun c hc => hrec c (List.mem_cons_of_mem _ hc))
      (by
        simp only [added] at hnd
        exact (List.Perm.nodup_iff ((List.perm_middle).map _)).1 hnd)
      (by
        simp only [removed, added] at hperm
        exact hperm.trans List.perm_middle)
      (fun pre x post hcs => by
        rcases hord (.Add r :: pre) x post (by rw [hcs]; rfl) with h | h
        · exact Or.inl (List.mem_cons_of_mem _ h)
        · rcases List.mem_cons.1 h with h | h
          · cases h
            exact Or.inl (List.mem_cons_self _ _)
          · exact Or.inr h)
    refine ⟨m', ?_, h2, h3⟩
    simp only [List.map_cons, Mapper.calls, Mapper.call, hadd, Option.some_bind, h1,
      Option.map_some']
  | .Remove r :: cs, L, m, hty, hpn, hm, htr, hrec, hnd, hperm, hord => by
    subst hty hpn
    have htr' : TypeOf r = some m.typ ∧ r.record.isSome :=
      hrec (.Remove r) (List.mem_cons_self _ _)
    obtain ⟨ht, hr⟩ := htr'
    obtain ⟨m₁, hrem, ht₁, hpn₁, hpk₁⟩ := Mapper.Remove_step hm.reachable.invariant.1 ht hr
    have hrL : r ∈ L := by
      rcases hord [] r cs rfl with h | h
      · exact h
      · simp at h
    simp only [added, removed] at hnd hperm
    have hndL : (L.map fun r => r.attr m.pkName).Nodup := by
      rw [List.map_append] at hnd
      exact (List.nodup_append.1 hnd).1
    have hinj : ∀ o ∈ L, o.attr m.pkName = r.attr m.pkName → o = r :=
      fun o ho e => List.inj_on_of_nodup_map hndL ho hrL e
    have hstored : m.pk.m.lookup (r.attr m.pkName) = some r := (htr _ r).2 ⟨hrL, rfl⟩
    have hm₁ := Disciplined.remove m m₁ r r hm ht hr hstored (fun _ _ => rfl) hrem
    have hall : (L ++ added cs).Nodup := List.Nodup.of_map _ hnd
    obtain ⟨m', h1, h2, h3⟩ := Mapper.calls_tracked m.typ m.pkName cs (L.erase r) m₁ ht₁ hpn₁ hm₁
      (fun k o => by
        rw [hpk₁ k, (List.Nodup.of_map _ hndL).mem_erase_iff]
        by_cases e : k = r.attr m.pkName
        · simp only [e, if_true]
          constructor
          · intro h; cases h
          · rintro ⟨⟨hne, ho⟩, he⟩
            exact absurd (hinj o ho he) hne
        · simp only [e, if_false]
          rw [htr k o]
          constructor
          · rintro ⟨ho, he⟩
            refine ⟨⟨?_, ho⟩, he⟩
            rintro rfl
            exact e he.symm
          · rintro ⟨⟨-, ho⟩, he⟩; exact ⟨ho, he⟩)
      (fun c hc => hrec c (List.mem_cons_of_mem _ hc))
      (List.Nodup.sublist (((List.erase_sublist r L).append_right _).map _) hnd)
      (by
        have := hperm.erase r
        rwa [List.erase_cons_head, List.erase_append_left _ hrL] at this)
      (fun pre x post hcs => by
        rcases hord (.Remove r :: pre) x post (by rw [hcs]; rfl) with h | h
        · by_cases e : x = r
          · subst e
            exfalso
            have hx : x ∈ removed cs := mem_removed (by rw [hcs]; simp)
            have : (x :: removed cs).Nodup := (List.Perm.nodup_iff hperm).2 hall
            exact (List.nodup_cons.1 this).1 hx
          · exact Or.inl ((List.mem_erase_of_ne e).2 h)
        · rcases List.mem_cons.1 h with h | h
          · cases h
          · exact Or.inr h)
    refine ⟨m', ?_, h2, h3⟩
    simp only [List.map_cons, Mapper.calls, Mapper.call, hrem, Option.some_bind, h1,
      Option.map_some']

/-- C15. From the store `NewMapper` has just returned, a sequence of `Add` and
`Remove` calls on records of the bound type in which the added records have
pairwise distinct primary keys, every added record is removed once and nothing
else is removed, and every `Remove` comes after the `Add` of its record: every
call returns no error, and at the end the primary map and every secondary index
are empty. -/
theorem add_all_remove_all (obj : Value) (m : Mapper) (cs : List Call)
    (hnew : NewMapper obj = some (.ok m))
    (hrec : ∀ c ∈ cs, TypeOf c.obj = some m.typ ∧ c.obj.record.isSome)
    (hnd : ((added cs).map fun r => r.attr m.pkName).Nodup)
    (hperm : (removed cs).Perm (added cs))
    (hord : ∀ pre r post, cs = pre ++ Call.Remove r :: post → Call.Add r ∈ pre) :
    ∃ m', m.calls cs = some (m', cs.map fun _ => none) ∧ m'.pk.m = ∅ ∧
      ∀ a idx, m'.indexes.lookup a = some idx → idx.m = ∅ := by
  obtain ⟨-, -, hempty, -⟩ := NewMapper_ok hnew
  obtain ⟨m', h1, h2, h3⟩ := Mapper.calls_tracked m.typ m.pkName cs [] m rfl rfl
    (Disciplined.new obj m hnew) (fun k o => by simp [hempty]) hrec (by simpa using hnd)
    (by simpa using hperm) (fun pre r post h => Or.inr (hord pre r post h))
  refine ⟨m', h1, Finmap.ext_lookup fun k => by rw [h3 k]; simp, fun a idx hl => ?_⟩
  apply Finmap.ext_lookup
  intro v
  rw [Finmap.lookup_empty]
  cases hv : idx.m.lookup v with
  | none => rfl
  | some b =>
    exfalso
    have hb : m'.bucket a v = some b := by simp [Mapper.bucket, hl, hv]
    obtain ⟨k, hk⟩ := Finset.nonempty_iff_ne_empty.2 (h2.reachable.invariant.2 a v b hb)
    have ha : a ∈ m'.indexes := AList.lookup_isSome.1 (by simp [hl])
    obtain ⟨o, ho, -⟩ := (h2.consistent.2 a ha v k).1 (by rw [hb]; exact hk)
    rw [h3 k] at ho
    cases ho

theorem add_all_remove_all_witness :
    NewMapper (mkBook 0 "" "" "") = some (.ok bookMapper) ∧
    (∀ c ∈ [Call.Add book1, Call.Add book2, Call.Remove book1, Call.Remove book2],
      TypeOf c.obj = some bookMapper.typ ∧ c.obj.record.isSome) ∧
    ((added [Call.Add book1, Call.Add book2, Call.Remove book1, Call.Remove book2]).map
      fun r => r.attr bookMapper.pkName).Nodup ∧
    (removed [Call.Add book1, Call.Add book2, Call.Remove book1, Call.Remove book2]).Perm
      (added [Call.Add book1, Call.Add book2, Call.Remove book1, Call.Remove book2]) ∧
    (∀ pre r post, [Call.Add book1, Call.Add book2, Call.Remove book1, Call.Remove book2] =
      pre ++ Call.Remove r :: post → Call.Add r ∈ pre) ∧
    ∃ m', bookMapper.calls [Call.Add book1, Call.Add book2, Call.Remove book1, Call.Remove book2] =
        some (m', [Call.Add book1, Call.Add book2, Call.Remove book1, Call.Remove book2].map
          fun _ => none) ∧
      m'.pk.m = ∅ ∧ ∀ a idx, m'.indexes.lookup a = some idx → idx.m = ∅ := by
  have hord : ∀ pre r post,
      [Call.Add book1, Call.Add book2, Call.Remove book1, Call.Remove book2] =
        pre ++ Call.Remove r :: post → Call.Add r ∈ pre := by
    intro pre r post h
    rcases pre with _ | ⟨c₁, _ | ⟨c₂, _ | ⟨c₃, _ | ⟨c₄, pre⟩⟩⟩⟩ <;>
      simp only [List.nil_append, List.cons_append, List.cons.injEq, Call.Add.injEq,
        Call.Remove.injEq, and_false, false_and, reduceCtorEq] at h
    · obtain ⟨rfl, rfl, rfl, -⟩ := h
      simp
    · obtain ⟨rfl, rfl, -, rfl, -⟩ := h
      simp
    · obtain ⟨-, -, -, -, h⟩ := h
      simp at h
  exact ⟨test_NewMapper, by decide, by decide, by decide, hord,
    add_all_remove_all (mkBook 0 "" "" "") bookMapper _ test_NewMapper (by decide) (by decide)
      (by decide) hord⟩

theorem getByPk_guarded : Guarded Mapper.getByPk.steps = true := by decide

theorem addByPk_guarded : Guarded Mapper.addByPk.steps = true := by decide

theorem removeByPk_guarded : Guarded Mapper.removeByPk.steps = true := by decide

theorem addByIndex_guarded (m : Mapper) (n v : String) :
    Guarded (Mapper.addByIndex.steps m n v) = true := by
  unfold Mapper.addByIndex.steps
  cases m.indexes.lookup n with
  | none => rfl
  | some idx =>
    by_cases h : idx.m.lookup v = none <;>
      simp [h, Guarded, Guarded.from, MapRef.mutex]

theorem removeByIndex_guarded (m : Mapper) (n v k : String) :
    Guarded (Mapper.removeByIndex.steps m n v k) = true := by
  unfold Mapper.removeByIndex.steps
  cases m.indexes.lookup n with
  | none => rfl
  | some idx =>
    cases hv : idx.m.lookup v with
    | none => simp [hv, Guarded, Guarded.from, MapRef.mutex]
    | some pks =>
      by_cases h : pks.erase k = ∅ <;>
        simp [hv, h, Guarded, Guarded.from, MapRef.mutex]

/-- C17 (the failing input). On the store after `Add(book1)`, the steps of
`Get("Title", "Jane Eyre")` read the bucket with no mutex held, `getByIndex`
having released the read lock before its `range`; `addByIndex` writes that very
bucket, under the exclusive lock of the index. -/
theorem Get_ranges_bucket_unlocked :
    Guarded (Mapper.Get.steps bookStore1 "Title" "Jane Eyre") = false ∧
      Step.write (.bucket "Title" "Jane Eyre") ∈
        Mapper.addByIndex.steps bookStore1 "Title" "Jane Eyre" := by
  decide

theorem Get_steps_primary_guarded (m : Mapper) (v : String) :
    Guarded (Mapper.Get.steps m m.pkName v) = true := by
  simp [Mapper.Get.steps, getByPk_guarded]

theorem Get_rangeSteps_eq (m : Mapper) (a v : String) :
    ∀ ks : List String, a ∈ ks →
      Mapper.Get.rangeSteps m a v ks = Mapper.getByIndex.steps m a v
  | [], h => by simp at h
  | k :: ks, h => by
    by_cases e : a = k
    · simp [Mapper.Get.rangeSteps, e]
    · have : a ∈ ks := by simpa [e] using h
      simp [Mapper.Get.rangeSteps, e, Get_rangeSteps_eq m a v ks this]

/-- On a secondary index other than the primary attribute, `Get` of a value
whose bucket exists and has a member reads that bucket with no mutex held. -/
theorem Get_steps_unguarded (m : Mapper) (a v : String) (b : Finset String)
    (ha : a ≠ m.pkName) (hb : m.bucket a v = some b) (hne : b ≠ ∅) :
    Guarded (Mapper.Get.steps m a v) = false := by
  unfold Mapper.bucket at hb
  obtain ⟨idx, hidx, hv⟩ := Option.bind_eq_some.1 hb
  have hmem : a ∈ m.indexes.keys := AList.mem_keys.1 (AList.lookup_isSome.1 (by simp [hidx]))
  obtain ⟨n, hn⟩ : ∃ n, b.card = n + 1 :=
    Nat.exists_eq_succ_of_ne_zero (fun h => hne (Finset.card_eq_zero.1 h))
  simp [Mapper.Get.steps, ha, Get_rangeSteps_eq m a v _ hmem, Mapper.getByIndex.steps, hidx, hv,
    hn, List.replicate_succ, Guarded, Guarded.from, MapRef.mutex]

end StructMap
